import Mathlib

/-!
# Medivh: epoch splitting, threshold and result metrics

A shallow embedding of the packet-to-epoch grouping and the flow extraction of
`PacketParser` (`src/src/PacketParser.cpp`), of the command line, `process_epoch` and the
heavy-hitter threshold of `main` (`src/main.cpp`) and of `ResultMetrics::evaluate` with the
ratio methods of `HeavyHitterMetric` (`src/include/ResultMetrics.hpp`), followed by the
properties established about them.  The headers `FlowKey.h` and `Ideal.h` are not among the
sources at hand: the key types and the Ideal counter are modelled from the specification.

Conventions.
* `std::chrono::nanoseconds` values are integers (`Int`) counting nanoseconds.  Timestamps
  produced by `parse_pcap` are `seconds * 10^9 + nanoseconds` with both parts read from
  32-bit fields, and the epoch loop only ever adds `epoch` to a start that stays below the
  current timestamp, so no 64-bit overflow is involved.
* `uint32_t` / `uint64_t` counters are natural numbers reduced `% 2^32` / `% 2^64` at every
  increment.
* `double` values are rationals (`ℚ`).  In `ResultMetrics::evaluate` and the ratio methods the
  arithmetic on them is exact; in the heavy-hitter threshold of `main` every operation is
  followed by a rounding function constrained by `DoubleRounding`.
-/

namespace Medivh

/-! ## Data model (include/PacketParser.h) -/

/-- Record `PacketRecord<FlowKeyType>` of PacketParser.h:57-61: a flow key and a timestamp in
nanoseconds. -/
structure PacketRecord (FlowKeyType : Type) where
  flow : FlowKeyType
  timestamp : Int
deriving DecidableEq, Repr

/-- Alias `PacketVector = std::vector<PacketRecordType>` of PacketParser.h:68. -/
abbrev PacketVector (FlowKeyType : Type) := List (PacketRecord FlowKeyType)

/-! ## parse_pcap (PacketParser.cpp:243-287) -/

/-- Postcondition of `std::sort(first, last, comp)` for the comparator
`comp a b = a.timestamp < b.timestamp` of PacketParser.cpp:281-284: the output is a
rearrangement of the input, and no later element compares less than an earlier one.  The order
of records with equal timestamps is left open, as it is by `std::sort`. -/
structure StdSortByTimestamp {FlowKeyType : Type}
    (std_sort : PacketVector FlowKeyType → PacketVector FlowKeyType) : Prop where
  perm : ∀ l, (std_sort l).Perm l
  sorted : ∀ l, (std_sort l).Pairwise (fun a b => ¬ b.timestamp < a.timestamp)

/-- Function `PacketParser::parse_pcap`, PacketParser.cpp:256-286.  `capture` is the sequence of
packets delivered by `PcapReader::get_next_packet`, each already reduced to the pair
(`extract_flow(packet)`, packet timestamp).  Records whose flow equals the default-constructed
key `FlowKeyType()` are skipped, the others are appended in file order, then the vector is
sorted with `std::sort` (a parameter, see `StdSortByTimestamp`). -/
def parse_pcap {FlowKeyType : Type} [DecidableEq FlowKeyType] [Inhabited FlowKeyType]
    (std_sort : PacketVector FlowKeyType → PacketVector FlowKeyType)
    (capture : List (PacketRecord FlowKeyType)) : PacketVector FlowKeyType :=
  std_sort (capture.filter (fun record => decide (record.flow ≠ default)))

/-! ## parse_pcap_with_epochs (PacketParser.cpp:289-334) -/

/-- The loop `while (offset >= epoch) { current_epoch_start += epoch; result.emplace_back();
offset = packet.timestamp - current_epoch_start; }` of PacketParser.cpp:318-322, for the packet
timestamp `ts`, run for at most `fuel` iterations.  Returns the new `current_epoch_start` and
`result`, or `none` when the loop condition still holds after `fuel` iterations. -/
def advance_window {FlowKeyType : Type} (epoch ts : Int) :
    Nat → Int → List (PacketVector FlowKeyType) → Option (Int × List (PacketVector FlowKeyType))
  | 0, current_epoch_start, result =>
      if ts - current_epoch_start ≥ epoch then none else some (current_epoch_start, result)
  | fuel + 1, current_epoch_start, result =>
      if ts - current_epoch_start ≥ epoch then
        advance_window epoch ts fuel (current_epoch_start + epoch) (result ++ [[]])
      else some (current_epoch_start, result)

/-- Statement `result.back().push_back(packet)` of PacketParser.cpp:324.  `result` always holds
at least one window when this runs (one is created at line 310). -/
def back_push_back {FlowKeyType : Type} :
    List (PacketVector FlowKeyType) → PacketRecord FlowKeyType → List (PacketVector FlowKeyType)
  | [], _ => []
  | [window], packet => [window ++ [packet]]
  | window :: next :: more, packet => window :: back_push_back (next :: more) packet

/-- Body of the `for` loop of PacketParser.cpp:314-325 for one packet, on the loop state
(`current_epoch_start`, `result`).  The inner `while` loop gets `offset` many iterations of
fuel: for `epoch ≥ 1` each iteration lowers the offset by at least one, so the loop exits
within that many iterations; for `epoch ≤ 0` an entered loop never exits (the offset does not
decrease), which is the `none` result. -/
def place_packet {FlowKeyType : Type} (epoch : Int)
    (state : Int × List (PacketVector FlowKeyType)) (packet : PacketRecord FlowKeyType) :
    Option (Int × List (PacketVector FlowKeyType)) :=
  (advance_window epoch packet.timestamp (packet.timestamp - state.1).toNat state.1 state.2).map
    (fun advanced => (advanced.1, back_push_back advanced.2 packet))

/-- The `for (const auto& packet : packets)` loop of PacketParser.cpp:314-325. -/
def fill_windows {FlowKeyType : Type} (epoch : Int) :
    List (PacketRecord FlowKeyType) → Int × List (PacketVector FlowKeyType) →
    Option (Int × List (PacketVector FlowKeyType))
  | [], state => some state
  | packet :: rest, state => (place_packet epoch state packet).bind (fill_windows epoch rest)

/-- The windows built by PacketParser.cpp:309-325 for a non-zero `epoch`, before the empty
ones are erased: `result` starts as one empty window, `current_epoch_start` as the first
packet's timestamp. -/
def epoch_windows {FlowKeyType : Type} (packets : PacketVector FlowKeyType) (epoch : Int) :
    Option (List (PacketVector FlowKeyType)) :=
  match packets with
  | [] => some []
  | front :: _ => (fill_windows epoch packets (front.timestamp, [[]])).map (fun state => state.2)

/-- The erase/remove_if idiom of PacketParser.cpp:328-331: drop every empty window. -/
def remove_empty {FlowKeyType : Type} (result : List (PacketVector FlowKeyType)) :
    List (PacketVector FlowKeyType) :=
  result.filter (fun pv => !pv.isEmpty)

/-- Function `PacketParser::parse_pcap_with_epochs`, PacketParser.cpp:289-334, as a function of
the vector `packets` that `parse_pcap(file_path)` returns at line 294: an `epoch` of 0 returns
the single vector `packets`; otherwise an empty `packets` returns no epoch, and a non-empty one
is cut into windows whose empty members are removed.  `none` stands for a run that does not
return (a `while` loop that never exits). -/
def parse_pcap_with_epochs {FlowKeyType : Type} (packets : PacketVector FlowKeyType)
    (epoch : Int) : Option (List (PacketVector FlowKeyType)) :=
  if epoch = 0 then some [packets]
  else (epoch_windows packets epoch).map remove_empty

/-- The test `if (epochs.empty())` of main.cpp:196-199, under which `main` prints
"Error: No packets found in PCAP file" and returns 1. -/
def no_packets_found {FlowKeyType : Type} (epochs : List (PacketVector FlowKeyType)) : Bool :=
  epochs.isEmpty

/-! ## Heavy-hitter threshold (main.cpp:235-247) -/

/-- Constant `HEAVY_HITTER_THRESHOLD_PERCENTAGE` of main.cpp:32, written `0.01` in the source:
its value is the `double` nearest to 0.01, which is `5764607523034235 / 2^59`. -/
def HEAVY_HITTER_THRESHOLD_PERCENTAGE : ℚ := 5764607523034235 / 576460752303423488

/-- What IEEE 754 binary64 arithmetic with rounding to nearest does to the exact result of a
`double` operation or of a conversion to `double`: the rounding is monotone, it leaves the
integers up to `2^53` unchanged, and in the normal range its relative error is at most
`2^-53`. -/
structure DoubleRounding (rounded : ℚ → ℚ) : Prop where
  mono : ∀ x y : ℚ, x ≤ y → rounded x ≤ rounded y
  exact_of_nat : ∀ n : Nat, n ≤ 2 ^ 53 → rounded (n : ℚ) = (n : ℚ)
  error : ∀ x : ℚ, 1 / 2 ^ 1022 ≤ x → x ≤ 2 ^ 1023 → |rounded x - x| ≤ x / 2 ^ 53

/-- Conversion `static_cast<uint32_t>(x)` of a `double`: the value is truncated toward zero;
the conversion is undefined (`none`) when the truncated value is not a `uint32_t`. -/
def static_cast_uint32 (x : ℚ) : Option Nat :=
  if 0 ≤ Int.tdiv x.num x.den ∧ Int.tdiv x.num x.den < 2 ^ 32 then
    some (Int.tdiv x.num x.den).toNat
  else none

/-- The threshold of main.cpp:243-247:
`static_cast<uint32_t>(total_packets * HEAVY_HITTER_THRESHOLD_PERCENTAGE / 100.0)`, replaced by
1 when it is 0 and `total_packets > 0`.  The `uint64_t` total is converted to `double`, then
multiplied, then divided, each result rounded to a `double` by `rounded`. -/
def heavy_hitter_threshold (rounded : ℚ → ℚ) (total_packets : Nat) : Option Nat :=
  (static_cast_uint32
    (rounded (rounded (rounded (total_packets : ℚ) * HEAVY_HITTER_THRESHOLD_PERCENTAGE) /
      100))).map
    (fun threshold => if threshold = 0 ∧ total_packets > 0 then 1 else threshold)

/-! ## ResultMetrics (include/ResultMetrics.hpp) -/

/-- Struct `ErrorMetric`, ResultMetrics.hpp:13-17. -/
structure ErrorMetric where
  are : ℚ := 0
  aae : ℚ := 0
  wmre : ℚ := 0

/-- Struct `HeavyHitterMetric`, ResultMetrics.hpp:19-24; the four counters are `uint32_t`.
`threshold` has no initialiser and is set first thing by `evaluate`. -/
structure HeavyHitterMetric where
  tp : Nat := 0
  tn : Nat := 0
  fp : Nat := 0
  fn : Nat := 0
  threshold : Nat

/-- The two members of a `ResultMetrics` object, ResultMetrics.hpp:148-149. -/
structure ResultMetrics where
  error_metric_ : ErrorMetric := {}
  heavy_hitter_metric_ : HeavyHitterMetric

/-- The local accumulators of `evaluate` (ResultMetrics.hpp:162-166) together with the
member `heavy_hitter_metric_` it updates in the loop. -/
structure EvaluateState where
  total_packets : Nat := 0
  sum_absolute_error : ℚ := 0
  sum_relative_error : ℚ := 0
  sum_weighted_relative_error : ℚ := 0
  total_flows : Nat := 0
  heavy_hitter_metric_ : HeavyHitterMetric

/-- The confusion-matrix update of ResultMetrics.hpp:196-204; each `++` is on a `uint32_t`. -/
def count_heavy_hitter (metric : HeavyHitterMetric) (is_heavy_ideal is_heavy_estimated : Bool) :
    HeavyHitterMetric :=
  if is_heavy_ideal && is_heavy_estimated then
    { metric with tp := (metric.tp + 1) % 2 ^ 32 }
  else if !is_heavy_ideal && !is_heavy_estimated then
    { metric with tn := (metric.tn + 1) % 2 ^ 32 }
  else if !is_heavy_ideal && is_heavy_estimated then
    { metric with fp := (metric.fp + 1) % 2 ^ 32 }
  else
    { metric with fn := (metric.fn + 1) % 2 ^ 32 }

/-- Body of the loop over the flows of the Ideal map, ResultMetrics.hpp:169-205, for the entry
`pair` = (flow, true count).  `query` is `sketch.query`; `total_packets` is a `uint64_t`,
`total_flows` a `uint32_t`. -/
def evaluate_flow {FlowKeyType : Type} (query : FlowKeyType → Nat) (threshold : Nat)
    (state : EvaluateState) (pair : FlowKeyType × Nat) : EvaluateState :=
  let true_count : Nat := pair.2
  let estimated_count : Nat := query pair.1
  let absolute_error : ℚ := |(true_count : ℚ) - (estimated_count : ℚ)|
  let relative_error : ℚ := absolute_error / (true_count : ℚ)
  { total_packets := (state.total_packets + true_count) % 2 ^ 64
    sum_absolute_error := state.sum_absolute_error + absolute_error
    sum_relative_error :=
      if true_count > 0 then state.sum_relative_error + relative_error
      else state.sum_relative_error
    sum_weighted_relative_error :=
      if true_count > 0 then
        state.sum_weighted_relative_error + relative_error * (true_count : ℚ)
      else state.sum_weighted_relative_error
    total_flows := (state.total_flows + 1) % 2 ^ 32
    heavy_hitter_metric_ :=
      count_heavy_hitter state.heavy_hitter_metric_ (decide (true_count ≥ threshold))
        (decide (estimated_count ≥ threshold)) }

/-- The accumulators after the loop of ResultMetrics.hpp:162-205 over all of `ideal_data`. -/
def evaluate_loop {FlowKeyType : Type} (ideal_data : List (FlowKeyType × Nat))
    (query : FlowKeyType → Nat) (threshold : Nat) : EvaluateState :=
  ideal_data.foldl (evaluate_flow query threshold)
    { heavy_hitter_metric_ := { threshold := threshold } }

/-- Function `ResultMetrics::evaluate`, ResultMetrics.hpp:151-215, run by the constructor on
fresh members.  `ideal_data` is the content of the Ideal map returned by `get_raw_data()`, as
the sequence of (flow, true count) entries in iteration order; counts are `uint64_t`. -/
def evaluate {FlowKeyType : Type} (ideal_data : List (FlowKeyType × Nat))
    (query : FlowKeyType → Nat) (threshold : Nat) : ResultMetrics :=
  if ideal_data.isEmpty then
    { heavy_hitter_metric_ := { threshold := threshold } }
  else
    { error_metric_ :=
        { are :=
            if (evaluate_loop ideal_data query threshold).total_flows > 0 then
              (evaluate_loop ideal_data query threshold).sum_relative_error /
                ((evaluate_loop ideal_data query threshold).total_flows : ℚ)
            else 0
          aae :=
            if (evaluate_loop ideal_data query threshold).total_flows > 0 then
              (evaluate_loop ideal_data query threshold).sum_absolute_error /
                ((evaluate_loop ideal_data query threshold).total_flows : ℚ)
            else 0
          wmre :=
            if (evaluate_loop ideal_data query threshold).total_packets > 0 then
              (evaluate_loop ideal_data query threshold).sum_weighted_relative_error /
                ((evaluate_loop ideal_data query threshold).total_packets : ℚ)
            else 0 }
      heavy_hitter_metric_ := (evaluate_loop ideal_data query threshold).heavy_hitter_metric_ }

/-- The counter of the confusion matrix for a flow whose true count is heavy or not
(`heavy_ideal`) and whose estimate is heavy or not (`heavy_estimated`): `tp`, `fn`, `fp`, `tn`. -/
def confusion_cell (metric : HeavyHitterMetric) (heavy_ideal heavy_estimated : Bool) : Nat :=
  match heavy_ideal, heavy_estimated with
  | true, true => metric.tp
  | true, false => metric.fn
  | false, true => metric.fp
  | false, false => metric.tn

/-! ## The metrics, as the specification describes them -/

/-- The predicate `is_heavy(x) := x ≥ threshold`. -/
def is_heavy (threshold x : Nat) : Bool := decide (x ≥ threshold)

/-- Number of flows of the Ideal map whose true count and estimate are classified as given. -/
def count_flows {FlowKeyType : Type} (ideal_data : List (FlowKeyType × Nat))
    (query : FlowKeyType → Nat) (threshold : Nat) (heavy_ideal heavy_estimated : Bool) : Nat :=
  ideal_data.countP (fun pair =>
    is_heavy threshold pair.2 == heavy_ideal && is_heavy threshold (query pair.1) == heavy_estimated)

/-- The flows of the Ideal map with true count greater than 0. -/
def positive_flows {FlowKeyType : Type} (ideal_data : List (FlowKeyType × Nat)) :
    List (FlowKeyType × Nat) :=
  ideal_data.filter (fun pair => decide (0 < pair.2))

/-- Sum over the flows with `true > 0` of `|true - estimate| / true`. -/
def relative_error_sum {FlowKeyType : Type} (ideal_data : List (FlowKeyType × Nat))
    (query : FlowKeyType → Nat) : ℚ :=
  ((positive_flows ideal_data).map
    (fun pair => |(pair.2 : ℚ) - (query pair.1 : ℚ)| / (pair.2 : ℚ))).sum

/-- Sum over the flows with `true > 0` of `|true - estimate|`. -/
def absolute_error_sum_of_positive {FlowKeyType : Type} (ideal_data : List (FlowKeyType × Nat))
    (query : FlowKeyType → Nat) : ℚ :=
  ((positive_flows ideal_data).map (fun pair => |(pair.2 : ℚ) - (query pair.1 : ℚ)|)).sum

/-- Sum over all flows of the true count. -/
def true_count_sum {FlowKeyType : Type} (ideal_data : List (FlowKeyType × Nat)) : Nat :=
  (ideal_data.map (fun pair => pair.2)).sum

/-! ## Time windows, as the specification describes them -/

/-- Window index of a packet for windows of length `epoch` counted from `t0`:
`floor((t_p - t0) / epoch)`. -/
def window_index {FlowKeyType : Type} (t0 epoch : Int) (packet : PacketRecord FlowKeyType) :
    Int :=
  (packet.timestamp - t0) / epoch

/-- The group `{p : floor((t_p - t0) / epoch) = k}` of a packet list, in list order. -/
def window_group {FlowKeyType : Type} (t0 epoch : Int) (packets : PacketVector FlowKeyType)
    (k : Nat) : PacketVector FlowKeyType :=
  packets.filter (fun packet => decide (window_index t0 epoch packet = (k : Int)))

/-- The groups of the windows `0, 1, ..., n - 1`, in increasing order of the window index. -/
def window_groups {FlowKeyType : Type} (t0 epoch : Int) (packets : PacketVector FlowKeyType)
    (n : Nat) : List (PacketVector FlowKeyType) :=
  (List.range n).map (window_group t0 epoch packets)

/-- Window index of the last packet of `packets`, or `j` when there is none. -/
def last_window_index {FlowKeyType : Type} (t0 epoch : Int) :
    Nat → List (PacketRecord FlowKeyType) → Nat
  | j, [] => j
  | _, packet :: rest => last_window_index t0 epoch (window_index t0 epoch packet).toNat rest

/-- The non-empty groups among the windows `0, ..., n - 1`, in increasing order of the window
index. -/
def nonempty_window_groups {FlowKeyType : Type} (t0 epoch : Int)
    (packets : PacketVector FlowKeyType) (n : Nat) : List (PacketVector FlowKeyType) :=
  (window_groups t0 epoch packets n).filter (fun group => !group.isEmpty)

/-- Timestamps in ascending order along a packet list. -/
def time_sorted {FlowKeyType : Type} (packets : PacketVector FlowKeyType) : Prop :=
  packets.Pairwise (fun a b => a.timestamp ≤ b.timestamp)

instance {FlowKeyType : Type} (packets : PacketVector FlowKeyType) :
    Decidable (time_sorted packets) := by
  unfold time_sorted; infer_instance

/-! ## Example inputs -/

/-- A packet of flow `1` at `ms` milliseconds (timestamps are kept in nanoseconds). -/
def at_ms (ms : Int) : PacketRecord Nat := ⟨1, ms * 1000000⟩

/-- The capture of the specification's epoch-split scenario: packets at 0, 50, 99, 100 and
250 ms. -/
def scenario_packets : PacketVector Nat :=
  [at_ms 0, at_ms 50, at_ms 99, at_ms 100, at_ms 250]

/-- An epoch of 100 ms, in nanoseconds. -/
def epoch_100ms : Int := 100000000

/-- A capture in file order, not sorted by time, with one packet without a valid flow (the
default key of `Nat` is 0). -/
def unsorted_capture : List (PacketRecord Nat) :=
  [⟨7, 250000000⟩, ⟨0, 10⟩, ⟨5, 0⟩, ⟨7, 100000000⟩]

/-- A sorting function meeting the `std::sort` postcondition: insertion sort on timestamps. -/
def insertion_sort_by_timestamp (packets : PacketVector Nat) : PacketVector Nat :=
  packets.insertionSort (fun a b => a.timestamp ≤ b.timestamp)

/-- An Ideal map of `n` flows of the two-tuple key type, (1, 0), ..., (1, n - 1), each seen
once. -/
def ideal_of_size (n : Nat) : List ((Nat × Nat) × Nat) :=
  (List.range n).map (fun i => ((1, i), 1))

/-- An Ideal map holding a flow of true count 0 next to a flow of true count 2. -/
def ideal_with_zero : List ((Nat × Nat) × Nat) := [((10, 1), 0), ((10, 2), 2)]

/-- An Ideal map of three flows with true counts 1, 2 and 5. -/
def small_ideal : List ((Nat × Nat) × Nat) := [((10, 1), 1), ((10, 2), 2), ((10, 3), 5)]

/-- A sketch answering 4 for the flow (10, 3) and 1 for every other flow. -/
def small_query : Nat × Nat → Nat := fun flow => if flow = (10, 3) then 4 else 1

/-- Sum over all flows of the Ideal map of `|true - estimate|`. -/
def absolute_error_sum {FlowKeyType : Type} (ideal_data : List (FlowKeyType × Nat))
    (query : FlowKeyType → Nat) : ℚ :=
  (ideal_data.map (fun pair => |(pair.2 : ℚ) - (query pair.1 : ℚ)|)).sum

/-! ## Command line of main (main.cpp:119-129, 192-194) -/

/-- The variable `epoch_ms` of main.cpp:121-128 once the command line is read.  `argument` is
`none` when no argument is given (`argc ≤ 1`) and `some (std::atoi(argv[1]))` otherwise: the
default is 100, and a value `≤ 0` is reported as invalid and replaced by 100. -/
def epoch_ms (argument : Option Int) : Int :=
  match argument with
  | none => 100
  | some parsed => if parsed ≤ 0 then 100 else parsed

/-- The constant `EPOCH_DURATION` of main.cpp:129, `std::chrono::milliseconds(epoch_ms)`
converted to nanoseconds. -/
def EPOCH_DURATION (argument : Option Int) : Int :=
  epoch_ms argument * 1000000

/-- The call `parser.parse_pcap_with_epochs(pcap_file, EPOCH_DURATION)` of main.cpp:193, on
the vector `packets` parsed from the capture. -/
def main_epochs {FlowKeyType : Type} (argument : Option Int)
    (packets : PacketVector FlowKeyType) : Option (List (PacketVector FlowKeyType)) :=
  parse_pcap_with_epochs packets (EPOCH_DURATION argument)

/-! ## Flow extraction (PacketParser.cpp:195-241) -/

/-- Modelled from the spec: the flow key `OneTuple` of FlowKey.h, a header that is not among
the sources at hand: the source IP; the default-constructed key has all components zero. -/
structure OneTuple where
  src_ip : Nat := 0
deriving DecidableEq, Repr

/-- Modelled from the spec: the flow key `TwoTuple` of FlowKey.h, a header that is not among
the sources at hand: source and destination IP; the default-constructed key has all
components zero. -/
structure TwoTuple where
  src_ip : Nat := 0
  dst_ip : Nat := 0
deriving DecidableEq, Repr

/-- Modelled from the spec: the flow key `FiveTuple` of FlowKey.h, a header that is not among
the sources at hand: source and destination IP, source and destination port, protocol; the
default-constructed key has all components zero. -/
structure FiveTuple where
  src_ip : Nat := 0
  dst_ip : Nat := 0
  src_port : Nat := 0
  dst_port : Nat := 0
  protocol : Nat := 0
deriving DecidableEq, Repr

instance : Inhabited OneTuple := ⟨{}⟩

instance : Inhabited TwoTuple := ⟨{}⟩

instance : Inhabited FiveTuple := ⟨{}⟩

/-- What `extract_flow` reads of a `pcpp::IPv4Layer`: source and destination address as
integers, and the protocol field. -/
structure IPv4Layer where
  src : Nat
  dst : Nat
  protocol : Nat
deriving DecidableEq, Repr

/-- What `extract_flow` reads of a `pcpp::TcpLayer` or `pcpp::UdpLayer`: the two ports. -/
structure PortLayer where
  src_port : Nat
  dst_port : Nat
deriving DecidableEq, Repr

/-- A packet as `parse_pcap` sees it: the layers `getLayerOfType` finds (`none` for a null
pointer) and the timestamp of the raw packet in nanoseconds. -/
structure Packet where
  ipv4_layer : Option IPv4Layer
  tcp_layer : Option PortLayer
  udp_layer : Option PortLayer
  timestamp : Int
deriving DecidableEq, Repr

/-- Constant `pcpp::PACKETPP_IPPROTO_TCP`. -/
def PACKETPP_IPPROTO_TCP : Nat := 6

/-- Constant `pcpp::PACKETPP_IPPROTO_UDP`. -/
def PACKETPP_IPPROTO_UDP : Nat := 17

/-- Specialisation `PacketParser<OneTuple>::extract_flow`, PacketParser.cpp:196-203. -/
def extract_flow_one_tuple (packet : Packet) : OneTuple :=
  match packet.ipv4_layer with
  | none => {}
  | some ipv4_layer => { src_ip := ipv4_layer.src }

/-- Specialisation `PacketParser<TwoTuple>::extract_flow`, PacketParser.cpp:206-214. -/
def extract_flow_two_tuple (packet : Packet) : TwoTuple :=
  match packet.ipv4_layer with
  | none => {}
  | some ipv4_layer => { src_ip := ipv4_layer.src, dst_ip := ipv4_layer.dst }

/-- Specialisation `PacketParser<FiveTuple>::extract_flow`, PacketParser.cpp:217-241. -/
def extract_flow_five_tuple (packet : Packet) : FiveTuple :=
  match packet.ipv4_layer with
  | none => {}
  | some ipv4_layer =>
    match (if ipv4_layer.protocol = PACKETPP_IPPROTO_TCP then packet.tcp_layer else none) with
    | some tcp_layer =>
      { src_ip := ipv4_layer.src, dst_ip := ipv4_layer.dst, src_port := tcp_layer.src_port,
        dst_port := tcp_layer.dst_port, protocol := ipv4_layer.protocol }
    | none =>
      match (if ipv4_layer.protocol = PACKETPP_IPPROTO_UDP then packet.udp_layer else none) with
      | some udp_layer =>
        { src_ip := ipv4_layer.src, dst_ip := ipv4_layer.dst, src_port := udp_layer.src_port,
          dst_port := udp_layer.dst_port, protocol := ipv4_layer.protocol }
      | none =>
        { src_ip := ipv4_layer.src, dst_ip := ipv4_layer.dst, src_port := 0, dst_port := 0,
          protocol := ipv4_layer.protocol }

/-- The part of the reading loop of `parse_pcap` that comes before the validity test,
PacketParser.cpp:257-261 and 271-273: each packet delivered by the reader becomes the pair of
its extracted flow and its timestamp. -/
def read_records {FlowKeyType : Type} (extract_flow : Packet → FlowKeyType)
    (packets : List Packet) : List (PacketRecord FlowKeyType) :=
  packets.map (fun packet => ⟨extract_flow packet, packet.timestamp⟩)

/-- Insertion sort on timestamps for any flow-key type, a sorting function meeting the
`std::sort` postcondition. -/
def insertion_sort_records {FlowKeyType : Type} (packets : PacketVector FlowKeyType) :
    PacketVector FlowKeyType :=
  packets.insertionSort (fun a b => a.timestamp ≤ b.timestamp)

/-- A capture of four packets: one without IPv4 layer, one with an IPv4 layer whose two
addresses are zero, and two ordinary ones, out of time order. -/
def mixed_packets : List Packet :=
  [⟨some ⟨10, 20, 6⟩, some ⟨80, 443⟩, none, 300⟩,
   ⟨none, none, none, 100⟩,
   ⟨some ⟨0, 0, 17⟩, none, some ⟨53, 53⟩, 150⟩,
   ⟨some ⟨10, 30, 17⟩, none, some ⟨53, 53⟩, 200⟩]

/-! ## The Ideal counter and process_epoch (main.cpp:46-78, 235-240) -/

/-- Modelled from the spec: the class `Ideal` of Ideal.h, a header that is not among the
sources at hand.  Specification §4.3: "A mapping from FlowKey to uint64 count.  `update(k,δ)`
adds δ to the entry for k (inserting 0 first).  `query(k)` returns 0 for unknown keys.
Exposes the full map to the metrics layer."  The map is kept as the list of its entries, one
per key. -/
structure Ideal (FlowKeyType : Type) where
  raw_data : List (FlowKeyType × Nat)

/-- Modelled from the spec: `Ideal::clear()`, which "returns state to the exact state
immediately after construction" (§4.2): the empty map. -/
def Ideal.clear {FlowKeyType : Type} (_ideal : Ideal FlowKeyType) : Ideal FlowKeyType :=
  ⟨[]⟩

/-- Modelled from the spec: `update(k,δ)` on the entries of the map: δ is added to the entry
for `k`, which is first inserted with count 0 when absent; counts are `uint64_t`. -/
def update_entries {FlowKeyType : Type} [DecidableEq FlowKeyType] :
    List (FlowKeyType × Nat) → FlowKeyType → Nat → List (FlowKeyType × Nat)
  | [], k, delta => [(k, (0 + delta) % 2 ^ 64)]
  | (key, count) :: rest, k, delta =>
      if key = k then (key, (count + delta) % 2 ^ 64) :: rest
      else (key, count) :: update_entries rest k delta

/-- Modelled from the spec: `Ideal::update(k, δ)`. -/
def Ideal.update {FlowKeyType : Type} [DecidableEq FlowKeyType] (ideal : Ideal FlowKeyType)
    (k : FlowKeyType) (delta : Nat) : Ideal FlowKeyType :=
  ⟨update_entries ideal.raw_data k delta⟩

/-- Modelled from the spec: `query(k)` on the entries of the map, 0 for an unknown key. -/
def query_entries {FlowKeyType : Type} [DecidableEq FlowKeyType] :
    List (FlowKeyType × Nat) → FlowKeyType → Nat
  | [], _ => 0
  | (key, count) :: rest, k => if key = k then count else query_entries rest k

/-- Modelled from the spec: `Ideal::query(k)`. -/
def Ideal.query {FlowKeyType : Type} [DecidableEq FlowKeyType] (ideal : Ideal FlowKeyType)
    (k : FlowKeyType) : Nat :=
  query_entries ideal.raw_data k

/-- Modelled from the spec: `Ideal::get_raw_data()`, the full map. -/
def Ideal.get_raw_data {FlowKeyType : Type} (ideal : Ideal FlowKeyType) :
    List (FlowKeyType × Nat) :=
  ideal.raw_data

/-- Function `process_epoch`, main.cpp:46-78, on the Ideal counter: `ideal.clear()`, then
`ideal.update(packet.flow, 1)` for each packet in order.  The seven sketches that the function
clears and updates alongside are separate objects that do not touch the Ideal counter. -/
def process_epoch {FlowKeyType : Type} [DecidableEq FlowKeyType]
    (packets : List (PacketRecord FlowKeyType)) (ideal : Ideal FlowKeyType) :
    Ideal FlowKeyType :=
  packets.foldl (fun counter packet => counter.update packet.flow 1) ideal.clear

/-- The epoch total of main.cpp:236-240: the `uint64_t` sum of the counts of
`ideal.get_raw_data()`. -/
def epoch_total_packets {FlowKeyType : Type} (ideal : Ideal FlowKeyType) : Nat :=
  ideal.get_raw_data.foldl (fun total_packets pair => (total_packets + pair.2) % 2 ^ 64) 0

/-- Number of records of a packet list whose flow is `k`. -/
def flow_count {FlowKeyType : Type} [DecidableEq FlowKeyType]
    (packets : List (PacketRecord FlowKeyType)) (k : FlowKeyType) : Nat :=
  packets.countP (fun packet => decide (packet.flow = k))

/-- An Ideal counter left over from an earlier epoch. -/
def stale_ideal : Ideal Nat := ⟨[(7, 40), (9, 2)]⟩

/-- An epoch of four packets of the flows 5, 7, 5, 5. -/
def epoch_packets : List (PacketRecord Nat) := [⟨5, 0⟩, ⟨7, 10⟩, ⟨5, 20⟩, ⟨5, 30⟩]

/-! ## Ratio metrics of HeavyHitterMetric (ResultMetrics.hpp:26-54) -/

/-- Method `get_precision`, ResultMetrics.hpp:26-29.  The sum `tp + fp` is formed on
`uint32_t` operands before it is converted to `double`. -/
def HeavyHitterMetric.get_precision (metric : HeavyHitterMetric) : ℚ :=
  if ((((metric.tp + metric.fp) % 2 ^ 32 : Nat) : ℚ)) > 0 then
    (metric.tp : ℚ) / (((metric.tp + metric.fp) % 2 ^ 32 : Nat) : ℚ)
  else 0

/-- Method `get_recall`, ResultMetrics.hpp:31-34. -/
def HeavyHitterMetric.get_recall (metric : HeavyHitterMetric) : ℚ :=
  if ((((metric.tp + metric.fn) % 2 ^ 32 : Nat) : ℚ)) > 0 then
    (metric.tp : ℚ) / (((metric.tp + metric.fn) % 2 ^ 32 : Nat) : ℚ)
  else 0

/-- Method `get_f1_score`, ResultMetrics.hpp:36-42. -/
def HeavyHitterMetric.get_f1_score (metric : HeavyHitterMetric) : ℚ :=
  if metric.get_precision + metric.get_recall > 0 then
    2 * metric.get_precision * metric.get_recall / (metric.get_precision + metric.get_recall)
  else 0

/-- Method `get_accuracy`, ResultMetrics.hpp:44-47.  Both `tp + tn + fp + fn` and `tp + tn`
are formed on `uint32_t` operands. -/
def HeavyHitterMetric.get_accuracy (metric : HeavyHitterMetric) : ℚ :=
  if ((((metric.tp + metric.tn + metric.fp + metric.fn) % 2 ^ 32 : Nat) : ℚ)) > 0 then
    ((((metric.tp + metric.tn) % 2 ^ 32 : Nat) : ℚ)) /
      (((metric.tp + metric.tn + metric.fp + metric.fn) % 2 ^ 32 : Nat) : ℚ)
  else 0

/-- Method `get_tpr`, ResultMetrics.hpp:49. -/
def HeavyHitterMetric.get_tpr (metric : HeavyHitterMetric) : ℚ :=
  metric.get_recall

/-- Method `get_fpr`, ResultMetrics.hpp:51-54. -/
def HeavyHitterMetric.get_fpr (metric : HeavyHitterMetric) : ℚ :=
  if ((((metric.tn + metric.fp) % 2 ^ 32 : Nat) : ℚ)) > 0 then
    (metric.fp : ℚ) / (((metric.tn + metric.fp) % 2 ^ 32 : Nat) : ℚ)
  else 0

/-- Counters with `tp = fp = 2^31`: each is a `uint32_t`, their sum is `2^32`. -/
def half_and_half : HeavyHitterMetric :=
  { tp := 2147483648, tn := 0, fp := 2147483648, fn := 0, threshold := 1 }

/-- Counters with `tp = 2^32 - 1` and `fp = 2`: each is a `uint32_t`, their sum is `2^32 + 1`. -/
def nearly_full : HeavyHitterMetric :=
  { tp := 4294967295, tn := 0, fp := 2, fn := 0, threshold := 1 }

/-- Counters of a small run: 3 true positives, 4 true negatives, 1 false positive, 2 false
negatives. -/
def small_counts : HeavyHitterMetric :=
  { tp := 3, tn := 4, fp := 1, fn := 2, threshold := 1 }

/-- Arithmetic without rounding error, one function meeting `DoubleRounding`. -/
def exact_rounding (x : ℚ) : ℚ := x

/-! # Properties -/

/-! ## The window-advancing loop -/

/-- With a positive epoch, `fuel ≥ offset` iterations are enough for the `while` loop: it ends
after `q = ⌊offset / epoch⌋` iterations (none when the offset is negative), having moved the
start by `q * epoch` and appended `q` empty windows. -/
theorem advance_window_of_pos {FlowKeyType : Type} {epoch : Int} (hpos : 0 < epoch) (ts : Int) :
    ∀ (fuel : Nat) (ces : Int) (result : List (PacketVector FlowKeyType)),
      (ts - ces).toNat ≤ fuel →
      advance_window epoch ts fuel ces result =
        some (ces + (((ts - ces) / epoch).toNat : Int) * epoch,
              result ++ List.replicate ((ts - ces) / epoch).toNat []) := by
  intro fuel
  induction fuel with
  | zero =>
    intro ces result hfuel
    have hlt : ts - ces < epoch := by omega
    have hq : ((ts - ces) / epoch).toNat = 0 := by
      have : (ts - ces) / epoch ≤ 0 := by
        have := (Int.ediv_lt_iff_lt_mul (a := ts - ces) (b := 1) hpos).2 (by omega)
        omega
      omega
    simp [advance_window, hq, not_le.2 hlt]
  | succ n ih =>
    intro ces result hfuel
    by_cases hge : ts - ces ≥ epoch
    · have hstep : (ts - (ces + epoch)) / epoch = (ts - ces) / epoch - 1 := by
        have h := Int.add_mul_ediv_right (ts - ces) (-1) (ne_of_gt hpos)
        have e : ts - (ces + epoch) = ts - ces + -1 * epoch := by ring
        rw [e, h]; ring
      have hone : 1 ≤ (ts - ces) / epoch := (Int.le_ediv_iff_mul_le hpos).2 (by omega)
      have hq : ((ts - ces) / epoch).toNat = ((ts - ces) / epoch - 1).toNat + 1 := by omega
      have hcast : ((((ts - ces) / epoch - 1).toNat : Nat) : Int) = (ts - ces) / epoch - 1 := by
        omega
      have hcast2 : ((((ts - ces) / epoch).toNat : Nat) : Int) = (ts - ces) / epoch := by omega
      rw [advance_window, if_pos hge, ih (ces + epoch) (result ++ [[]]) (by omega), hstep, hcast,
        hcast2]
      congr 2
      · ring
      · rw [hq, List.replicate_succ, List.append_assoc]
        simp
    · have hlt : ts - ces < epoch := not_le.1 hge
      have hq : ((ts - ces) / epoch).toNat = 0 := by
        have : (ts - ces) / epoch ≤ 0 := by
          have := (Int.ediv_lt_iff_lt_mul (a := ts - ces) (b := 1) hpos).2 (by omega)
          omega
        omega
      simp [advance_window, hq, hge]

/-- With `epoch ≤ 0`, a `while` loop that is entered never exits, whatever the fuel. -/
theorem advance_window_of_nonpos {FlowKeyType : Type} {epoch : Int} (hnonpos : epoch ≤ 0)
    (ts : Int) :
    ∀ (fuel : Nat) (ces : Int) (result : List (PacketVector FlowKeyType)),
      ts - ces ≥ epoch → advance_window epoch ts fuel ces result = none := by
  intro fuel
  induction fuel with
  | zero => intro ces result h; simp [advance_window, h]
  | succ n ih =>
    intro ces result h
    rw [advance_window, if_pos h]
    exact ih _ _ (by omega)

/-- A `while` loop that is not entered leaves the state unchanged, whatever the fuel. -/
theorem advance_window_of_lt {FlowKeyType : Type} {epoch ts ces : Int} (hlt : ts - ces < epoch)
    (fuel : Nat) (result : List (PacketVector FlowKeyType)) :
    advance_window epoch ts fuel ces result = some (ces, result) := by
  cases fuel <;> simp [advance_window, not_le.2 hlt]

/-- The loop body does not return exactly when its `while` loop is entered with a
non-positive epoch, the one case in which the source loop never exits. -/
theorem place_packet_eq_none_iff {FlowKeyType : Type} (epoch ces : Int)
    (result : List (PacketVector FlowKeyType)) (packet : PacketRecord FlowKeyType) :
    place_packet epoch (ces, result) packet = none ↔
      epoch ≤ 0 ∧ packet.timestamp - ces ≥ epoch := by
  simp only [place_packet, Option.map_eq_none']
  constructor
  · intro h
    by_cases hpos : 0 < epoch
    · rw [advance_window_of_pos hpos packet.timestamp _ ces result (le_refl _)] at h
      exact absurd h (by simp)
    · by_cases hlt : packet.timestamp - ces < epoch
      · rw [advance_window_of_lt hlt] at h
        exact absurd h (by simp)
      · exact ⟨not_lt.1 hpos, not_lt.1 hlt⟩
  · rintro ⟨hnonpos, hge⟩
    exact advance_window_of_nonpos hnonpos packet.timestamp _ ces result hge

theorem back_push_back_append {FlowKeyType : Type} (windows : List (PacketVector FlowKeyType))
    (last : PacketVector FlowKeyType) (packet : PacketRecord FlowKeyType) :
    back_push_back (windows ++ [last]) packet = windows ++ [last ++ [packet]] := by
  induction windows with
  | nil => rfl
  | cons w ws ih =>
    cases ws with
    | nil => rfl
    | cons w2 ws2 =>
      have : (w :: w2 :: ws2) ++ [last] = w :: w2 :: (ws2 ++ [last]) := rfl
      rw [this, back_push_back]
      have h2 : w2 :: (ws2 ++ [last]) = (w2 :: ws2) ++ [last] := rfl
      rw [h2, ih]
      rfl

/-- The windows after `q` iterations of the `while` loop followed by the `push_back`. -/
theorem back_push_back_replicate {FlowKeyType : Type}
    (windows : List (PacketVector FlowKeyType)) (last : PacketVector FlowKeyType)
    (packet : PacketRecord FlowKeyType) (q : Nat) :
    back_push_back ((windows ++ [last]) ++ List.replicate q []) packet =
      if q = 0 then windows ++ [last ++ [packet]]
      else (windows ++ [last]) ++ List.replicate (q - 1) [] ++ [[packet]] := by
  cases q with
  | zero => simp [back_push_back_append]
  | succ n =>
    rw [List.replicate_succ', ← List.append_assoc, back_push_back_append]
    simp

/-! ## Every packet is placed once: the concatenation invariant -/

theorem flatten_append_replicate_nil {α : Type} (l : List (List α)) (q : Nat) :
    (l ++ List.replicate q []).flatten = l.flatten := by
  induction q with
  | zero => simp
  | succ n ih => rw [List.replicate_succ', ← List.append_assoc, List.flatten_append, ih]; simp

/-- One packet through the loop body, positive epoch: the body returns after
`q = ⌊offset / epoch⌋` window advances. -/
theorem place_packet_of_pos {FlowKeyType : Type} {epoch : Int} (hpos : 0 < epoch)
    (ces : Int) (result : List (PacketVector FlowKeyType)) (packet : PacketRecord FlowKeyType) :
    place_packet epoch (ces, result) packet =
      some (ces + (((packet.timestamp - ces) / epoch).toNat : Int) * epoch,
        back_push_back (result ++ List.replicate ((packet.timestamp - ces) / epoch).toNat [])
          packet) := by
  simp only [place_packet]
  rw [advance_window_of_pos hpos packet.timestamp _ ces _ (le_refl _)]
  rfl

/-- One packet through the loop body, positive epoch: the window list stays non-empty and its
concatenation grows by exactly the packet. -/
theorem place_packet_flatten {FlowKeyType : Type} {epoch : Int} (hpos : 0 < epoch)
    (ces : Int) (result : List (PacketVector FlowKeyType)) (hne : result ≠ [])
    (packet : PacketRecord FlowKeyType) :
    ∃ state, place_packet epoch (ces, result) packet = some state ∧ state.2 ≠ [] ∧
      state.2.flatten = result.flatten ++ [packet] := by
  obtain ⟨windows, last, rfl⟩ : ∃ windows last, result = windows ++ [last] :=
    ⟨result.dropLast, result.getLast hne, (List.dropLast_append_getLast hne).symm⟩
  refine ⟨_, place_packet_of_pos hpos ces _ packet, ?_, ?_⟩
  · simp only [back_push_back_replicate]
    split <;> simp
  · simp only [back_push_back_replicate]
    split
    · simp
    · simp [flatten_append_replicate_nil]

/-- The `for` loop, positive epoch: it returns, and the concatenation of the windows grows by
exactly the packets looped over, in order. -/
theorem fill_windows_flatten {FlowKeyType : Type} {epoch : Int} (hpos : 0 < epoch) :
    ∀ (packets : List (PacketRecord FlowKeyType)) (ces : Int)
      (result : List (PacketVector FlowKeyType)), result ≠ [] →
      ∃ state, fill_windows epoch packets (ces, result) = some state ∧ state.2 ≠ [] ∧
        state.2.flatten = result.flatten ++ packets := by
  intro packets
  induction packets with
  | nil => intro ces result hne; exact ⟨(ces, result), rfl, hne, by simp⟩
  | cons packet rest ih =>
    intro ces result hne
    obtain ⟨⟨ces1, result1⟩, h1, hne1, hflat1⟩ := place_packet_flatten hpos ces result hne packet
    obtain ⟨state, h2, hne2, hflat2⟩ := ih ces1 result1 hne1
    refine ⟨state, ?_, hne2, ?_⟩
    · simp only [fill_windows, h1, Option.some_bind]
      exact h2
    · rw [hflat2]
      simp only at hflat1
      rw [hflat1]
      simp

theorem epoch_windows_flatten {FlowKeyType : Type} {epoch : Int} (hpos : 0 < epoch)
    (packets : PacketVector FlowKeyType) :
    ∃ windows, epoch_windows packets epoch = some windows ∧ windows.flatten = packets := by
  cases packets with
  | nil => exact ⟨[], rfl, rfl⟩
  | cons front rest =>
    obtain ⟨state, h, _, hflat⟩ :=
      fill_windows_flatten hpos (front :: rest) front.timestamp [[]] (by simp)
    refine ⟨state.2, ?_, by simpa using hflat⟩
    simp [epoch_windows, h]

theorem remove_empty_flatten {FlowKeyType : Type} (result : List (PacketVector FlowKeyType)) :
    (remove_empty result).flatten = result.flatten := by
  induction result with
  | nil => rfl
  | cons w ws ih =>
    cases w with
    | nil => simpa [remove_empty] using ih
    | cons a as =>
      have : remove_empty ((a :: as) :: ws) = (a :: as) :: remove_empty ws := by
        simp [remove_empty]
      rw [this, List.flatten_cons, List.flatten_cons, ih]

theorem remove_empty_ne_nil {FlowKeyType : Type} (result : List (PacketVector FlowKeyType)) :
    ∀ e ∈ remove_empty result, e ≠ [] := by
  intro e he
  simp only [remove_empty, List.mem_filter] at he
  intro h
  simp [h] at he

/-- Positive epoch, any packet list: the function returns a list of non-empty epochs whose
concatenation is the packet list. -/
theorem parse_pcap_with_epochs_of_pos {FlowKeyType : Type} {epoch : Int} (hpos : 0 < epoch)
    (packets : PacketVector FlowKeyType) :
    ∃ epochs, parse_pcap_with_epochs packets epoch = some epochs ∧ epochs.flatten = packets ∧
      ∀ e ∈ epochs, e ≠ [] := by
  obtain ⟨windows, h, hflat⟩ := epoch_windows_flatten hpos packets
  refine ⟨remove_empty windows, ?_, ?_, remove_empty_ne_nil windows⟩
  · simp [parse_pcap_with_epochs, ne_of_gt hpos, h]
  · rw [remove_empty_flatten, hflat]

/-! ## The windows of a time-sorted packet list -/

theorem window_group_append {FlowKeyType : Type} (t0 epoch : Int)
    (pre suf : PacketVector FlowKeyType) (k : Nat) :
    window_group t0 epoch (pre ++ suf) k =
      window_group t0 epoch pre k ++ window_group t0 epoch suf k := by
  simp [window_group]

theorem window_group_eq_nil {FlowKeyType : Type} (t0 epoch : Int)
    (pre : PacketVector FlowKeyType) (k : Nat)
    (h : ∀ x ∈ pre, window_index t0 epoch x ≠ (k : Int)) : window_group t0 epoch pre k = [] := by
  simp only [window_group, List.filter_eq_nil_iff]
  intro x hx
  simpa using h x hx

theorem window_groups_succ {FlowKeyType : Type} (t0 epoch : Int)
    (pre : PacketVector FlowKeyType) (n : Nat) :
    window_groups t0 epoch pre (n + 1) =
      window_groups t0 epoch pre n ++ [window_group t0 epoch pre n] := by
  simp [window_groups, List.range_succ]

/-- Windows beyond the largest index in use are empty. -/
theorem window_groups_extend {FlowKeyType : Type} (t0 epoch : Int)
    (pre : PacketVector FlowKeyType) (j : Nat)
    (hpre : ∀ x ∈ pre, window_index t0 epoch x ≤ (j : Int)) (d : Nat) :
    window_groups t0 epoch pre (j + 1 + d) =
      window_groups t0 epoch pre (j + 1) ++ List.replicate d [] := by
  induction d with
  | zero => simp
  | succ d ih =>
    rw [← Nat.add_assoc, window_groups_succ, ih, List.replicate_succ', List.append_assoc]
    congr 2
    rw [window_group_eq_nil]
    intro x hx h
    have := hpre x hx
    rw [h] at this
    push_cast at this
    omega

/-- Adding a packet of window `m` to a prefix whose windows all lie below `m` only changes
the group of window `m`. -/
theorem window_groups_append_singleton {FlowKeyType : Type} (t0 epoch : Int)
    (pre : PacketVector FlowKeyType) (packet : PacketRecord FlowKeyType) (m : Nat)
    (hm : window_index t0 epoch packet = (m : Int)) :
    window_groups t0 epoch (pre ++ [packet]) (m + 1) =
      window_groups t0 epoch pre m ++ [window_group t0 epoch pre m ++ [packet]] := by
  rw [window_groups_succ, window_group_append]
  have hlast : window_group t0 epoch [packet] m = [packet] := by
    simp [window_group, hm]
  rw [hlast]
  congr 1
  simp only [window_groups]
  apply List.map_congr_left
  intro k hk
  rw [window_group_append]
  have hk' : k < m := List.mem_range.1 hk
  have : window_group t0 epoch [packet] k = [] := by
    apply window_group_eq_nil
    intro x hx
    rw [List.mem_singleton] at hx
    subst hx
    rw [hm]
    intro h
    have : (m : Int) = (k : Int) := h
    omega
  rw [this, List.append_nil]

/-- The loop body on the windows of a prefix: after the packet of window `m ≥ j` is placed,
the windows are those of the prefix with the packet appended. -/
theorem back_push_back_window_groups {FlowKeyType : Type} (t0 epoch : Int)
    (pre : PacketVector FlowKeyType) (packet : PacketRecord FlowKeyType) (j m : Nat)
    (hpre : ∀ x ∈ pre, window_index t0 epoch x ≤ (j : Int))
    (hm : window_index t0 epoch packet = (m : Int)) (hjm : j ≤ m) :
    back_push_back (window_groups t0 epoch pre (j + 1) ++ List.replicate (m - j) []) packet =
      window_groups t0 epoch (pre ++ [packet]) (m + 1) := by
  rw [window_groups_append_singleton t0 epoch pre packet m hm, window_groups_succ,
    back_push_back_replicate]
  by_cases hq : m - j = 0
  · have : m = j := by omega
    subst this
    simp
  · rw [if_neg hq]
    have hmj : m = j + 1 + (m - j - 1) := by omega
    have hnil : window_group t0 epoch pre m = [] := by
      apply window_group_eq_nil
      intro x hx h
      have := hpre x hx
      rw [h] at this
      have : m ≤ j := by exact_mod_cast this
      omega
    rw [hnil, List.nil_append]
    conv_rhs => rw [hmj, window_groups_extend t0 epoch pre j hpre, window_groups_succ]

theorem window_index_sub {FlowKeyType : Type} {t0 epoch : Int} (hpos : 0 < epoch)
    (packet : PacketRecord FlowKeyType) (j : Nat) :
    (packet.timestamp - (t0 + (j : Int) * epoch)) / epoch =
      window_index t0 epoch packet - (j : Int) := by
  have h := Int.add_mul_ediv_right (packet.timestamp - t0) (-(j : Int)) (ne_of_gt hpos)
  have e : packet.timestamp - (t0 + (j : Int) * epoch) =
      packet.timestamp - t0 + -(j : Int) * epoch := by ring
  rw [e, h, window_index]
  ring

/-- A packet lies in window `k` exactly when its timestamp is in
`[t0 + k * epoch, t0 + (k + 1) * epoch)`. -/
theorem window_index_eq_iff {FlowKeyType : Type} {t0 epoch : Int} (hpos : 0 < epoch)
    (packet : PacketRecord FlowKeyType) (k : Int) :
    window_index t0 epoch packet = k ↔
      t0 + k * epoch ≤ packet.timestamp ∧ packet.timestamp < t0 + (k + 1) * epoch := by
  unfold window_index
  constructor
  · intro h
    have h1 := (Int.le_ediv_iff_mul_le (a := k) (b := packet.timestamp - t0) hpos).1 (by omega)
    have h2 := (Int.ediv_lt_iff_lt_mul (a := packet.timestamp - t0) (b := k + 1) hpos).1
      (by omega)
    constructor <;> linarith
  · rintro ⟨h1, h2⟩
    have h3 := (Int.le_ediv_iff_mul_le (a := k) (b := packet.timestamp - t0) hpos).2
      (by linarith)
    have h4 := (Int.ediv_lt_iff_lt_mul (a := packet.timestamp - t0) (b := k + 1) hpos).2
      (by linarith)
    omega

theorem window_index_mono {FlowKeyType : Type} {t0 epoch : Int} (hpos : 0 < epoch)
    (p q : PacketRecord FlowKeyType) (h : p.timestamp ≤ q.timestamp) :
    window_index t0 epoch p ≤ window_index t0 epoch q := by
  unfold window_index
  exact Int.ediv_le_ediv hpos (by omega)

/-- The `for` loop on a time-sorted suffix, started from the windows of the prefix: it
returns the windows of the whole list, one per window index up to that of the last packet. -/
theorem fill_windows_window_groups {FlowKeyType : Type} {epoch : Int} (hpos : 0 < epoch)
    (t0 : Int) :
    ∀ (suf pre : PacketVector FlowKeyType) (j : Nat),
      (∀ x ∈ pre, window_index t0 epoch x ≤ (j : Int)) → time_sorted suf →
      (∀ x ∈ suf, t0 + (j : Int) * epoch ≤ x.timestamp) →
      fill_windows epoch suf (t0 + (j : Int) * epoch, window_groups t0 epoch pre (j + 1)) =
        some (t0 + (last_window_index t0 epoch j suf : Int) * epoch,
          window_groups t0 epoch (pre ++ suf) (last_window_index t0 epoch j suf + 1)) := by
  intro suf
  induction suf with
  | nil => intro pre j _ _ _; simp [fill_windows, last_window_index]
  | cons packet rest ih =>
    intro pre j hpre hsorted hge
    have hge0 : t0 + (j : Int) * epoch ≤ packet.timestamp := hge packet (List.mem_cons_self _ _)
    have hidx : (j : Int) ≤ window_index t0 epoch packet :=
      (Int.le_ediv_iff_mul_le hpos).2 (by linarith)
    obtain ⟨m, hm⟩ : ∃ m : Nat, window_index t0 epoch packet = (m : Int) :=
      ⟨(window_index t0 epoch packet).toNat, by omega⟩
    have hjm : j ≤ m := by rw [hm] at hidx; exact_mod_cast hidx
    have hq : ((packet.timestamp - (t0 + (j : Int) * epoch)) / epoch).toNat = m - j := by
      rw [window_index_sub hpos, hm]; omega
    have hplace : place_packet epoch (t0 + (j : Int) * epoch, window_groups t0 epoch pre (j + 1))
        packet = some (t0 + (m : Int) * epoch, window_groups t0 epoch (pre ++ [packet]) (m + 1)) := by
      rw [place_packet_of_pos hpos, hq,
        back_push_back_window_groups t0 epoch pre packet j m hpre hm hjm]
      congr 2
      have : ((m - j : Nat) : Int) = (m : Int) - (j : Int) := by omega
      rw [this]; ring
    have hlast : last_window_index t0 epoch j (packet :: rest) =
        last_window_index t0 epoch m rest := by
      simp [last_window_index, hm]
    rw [fill_windows, hplace, Option.some_bind, hlast]
    have hpre' : ∀ x ∈ pre ++ [packet], window_index t0 epoch x ≤ (m : Int) := by
      intro x hx
      rcases List.mem_append.1 hx with h | h
      · have := hpre x h; omega
      · rw [List.mem_singleton] at h; subst h; omega
    have hsorted' : time_sorted rest := (List.pairwise_cons.1 hsorted).2
    have hge' : ∀ x ∈ rest, t0 + (m : Int) * epoch ≤ x.timestamp := by
      intro x hx
      have h1 : packet.timestamp ≤ x.timestamp := (List.pairwise_cons.1 hsorted).1 x hx
      have h2 := ((window_index_eq_iff hpos packet (m : Int)).1 hm).1
      linarith
    rw [ih (pre ++ [packet]) m hpre' hsorted' hge']
    simp

/-- On a non-empty list, `last_window_index` is the window index of the last packet. -/
theorem last_window_index_eq_getLast {FlowKeyType : Type} (t0 epoch : Int) :
    ∀ (packets : PacketVector FlowKeyType) (hne : packets ≠ []) (j : Nat),
      last_window_index t0 epoch j packets =
        (window_index t0 epoch (packets.getLast hne)).toNat := by
  intro packets
  induction packets with
  | nil => intro hne; exact absurd rfl hne
  | cons packet rest ih =>
    intro hne j
    cases rest with
    | nil => simp [last_window_index]
    | cons next more =>
      rw [last_window_index, ih (List.cons_ne_nil _ _), List.getLast_cons (List.cons_ne_nil _ _)]

/-- The windows built for a non-empty time-sorted packet list and a positive epoch, before the
empty ones are removed: one group per window index from 0 to that of the last packet. -/
theorem epoch_windows_eq_window_groups {FlowKeyType : Type} {epoch : Int} (hpos : 0 < epoch)
    (front : PacketRecord FlowKeyType) (rest : List (PacketRecord FlowKeyType))
    (hsorted : time_sorted (front :: rest)) :
    epoch_windows (front :: rest) epoch =
      some (window_groups front.timestamp epoch (front :: rest)
        ((window_index front.timestamp epoch
          ((front :: rest).getLast (List.cons_ne_nil _ _))).toNat + 1)) := by
  have hge : ∀ x ∈ front :: rest, front.timestamp + ((0 : Nat) : Int) * epoch ≤ x.timestamp := by
    intro x hx
    rcases List.mem_cons.1 hx with h | h
    · subst h; simp
    · have := (List.pairwise_cons.1 hsorted).1 x h
      simpa using this
  have h := fill_windows_window_groups hpos front.timestamp (front :: rest) [] 0
    (by simp) hsorted hge
  have h0 : window_groups front.timestamp epoch ([] : PacketVector FlowKeyType) (0 + 1) = [[]] := by
    simp [window_groups, window_group, List.range_succ]
  rw [h0] at h
  simp only [Nat.cast_zero, zero_mul, add_zero, List.nil_append] at h
  simp only [epoch_windows, h, Option.map_some']
  rw [last_window_index_eq_getLast front.timestamp epoch (front :: rest) (List.cons_ne_nil _ _)]

/-- In a time-sorted list no timestamp exceeds that of the last packet. -/
theorem time_sorted_le_getLast {FlowKeyType : Type} :
    ∀ (packets : PacketVector FlowKeyType) (hne : packets ≠ []), time_sorted packets →
      ∀ x ∈ packets, x.timestamp ≤ (packets.getLast hne).timestamp := by
  intro packets
  induction packets with
  | nil => intro hne; exact absurd rfl hne
  | cons packet rest ih =>
    intro hne hsorted x hx
    cases rest with
    | nil =>
      rw [List.mem_singleton] at hx
      subst hx
      simp
    | cons next more =>
      rw [List.getLast_cons (List.cons_ne_nil _ _)]
      have hrest : time_sorted (next :: more) := (List.pairwise_cons.1 hsorted).2
      rcases List.mem_cons.1 hx with h | h
      · subst h
        exact (List.pairwise_cons.1 hsorted).1 _ (List.getLast_mem _)
      · exact ih (List.cons_ne_nil _ _) hrest x h

/-- Membership in a window group. -/
theorem mem_window_group {FlowKeyType : Type} (t0 epoch : Int)
    (packets : PacketVector FlowKeyType) (k : Nat) (x : PacketRecord FlowKeyType) :
    x ∈ window_group t0 epoch packets k ↔ x ∈ packets ∧ window_index t0 epoch x = (k : Int) := by
  simp [window_group]

/-- Every listed non-empty group is the group of one window index below the bound. -/
theorem mem_nonempty_window_groups {FlowKeyType : Type} (t0 epoch : Int)
    (packets : PacketVector FlowKeyType) (n : Nat) (e : PacketVector FlowKeyType)
    (he : e ∈ nonempty_window_groups t0 epoch packets n) :
    ∃ k : Nat, k < n ∧ e = window_group t0 epoch packets k := by
  simp only [nonempty_window_groups, window_groups, List.mem_filter, List.mem_map,
    List.mem_range] at he
  obtain ⟨⟨k, hk, rfl⟩, _⟩ := he
  exact ⟨k, hk, rfl⟩

/-- Groups of increasing window index hold strictly increasing timestamps. -/
theorem window_group_lt {FlowKeyType : Type} {t0 epoch : Int} (hpos : 0 < epoch)
    (packets : PacketVector FlowKeyType) (k1 k2 : Nat) (hk : k1 < k2) :
    ∀ p ∈ window_group t0 epoch packets k1, ∀ q ∈ window_group t0 epoch packets k2,
      p.timestamp < q.timestamp := by
  intro p hp q hq
  have h1 := ((window_index_eq_iff hpos p (k1 : Int)).1
    ((mem_window_group t0 epoch packets k1 p).1 hp).2).2
  have h2 := ((window_index_eq_iff hpos q (k2 : Int)).1
    ((mem_window_group t0 epoch packets k2 q).1 hq).2).1
  have h3 : ((k1 : Int) + 1) * epoch ≤ (k2 : Int) * epoch :=
    mul_le_mul_of_nonneg_right (by exact_mod_cast hk) (le_of_lt hpos)
  linarith

theorem time_sorted_window_group {FlowKeyType : Type} (t0 epoch : Int)
    (packets : PacketVector FlowKeyType) (hsorted : time_sorted packets) (k : Nat) :
    time_sorted (window_group t0 epoch packets k) :=
  List.Pairwise.sublist (List.filter_sublist _) hsorted

/-- The listed groups are pairwise separated in time, earlier group strictly first. -/
theorem nonempty_window_groups_pairwise {FlowKeyType : Type} {t0 epoch : Int} (hpos : 0 < epoch)
    (packets : PacketVector FlowKeyType) (n : Nat) :
    (nonempty_window_groups t0 epoch packets n).Pairwise
      (fun e1 e2 => ∀ p ∈ e1, ∀ q ∈ e2, p.timestamp < q.timestamp) := by
  simp only [nonempty_window_groups, window_groups]
  apply List.Pairwise.sublist (List.filter_sublist _)
  rw [List.pairwise_map]
  exact List.Pairwise.imp (fun {a b} hab => window_group_lt hpos packets a b hab)
    (List.pairwise_lt_range n)

/-- Positive epoch, non-empty time-sorted list: the returned epochs are the non-empty window
groups, in increasing order of the window index up to that of the last packet. -/
theorem parse_pcap_with_epochs_sorted {FlowKeyType : Type} {epoch : Int} (hpos : 0 < epoch)
    (front : PacketRecord FlowKeyType) (rest : List (PacketRecord FlowKeyType))
    (hsorted : time_sorted (front :: rest)) :
    parse_pcap_with_epochs (front :: rest) epoch =
      some (nonempty_window_groups front.timestamp epoch (front :: rest)
        ((window_index front.timestamp epoch
          ((front :: rest).getLast (List.cons_ne_nil _ _))).toNat + 1)) := by
  simp only [parse_pcap_with_epochs, if_neg (ne_of_gt hpos),
    epoch_windows_eq_window_groups hpos front rest hsorted, Option.map_some']
  rfl

/-- In a time-sorted list starting at `t0`, every window index lies between 0 and that of
the last packet. -/
theorem window_index_bounds {FlowKeyType : Type} {epoch : Int} (hpos : 0 < epoch)
    (front : PacketRecord FlowKeyType) (rest : List (PacketRecord FlowKeyType))
    (hsorted : time_sorted (front :: rest)) :
    ∀ x ∈ front :: rest, 0 ≤ window_index front.timestamp epoch x ∧
      window_index front.timestamp epoch x ≤
        window_index front.timestamp epoch ((front :: rest).getLast (List.cons_ne_nil _ _)) := by
  intro x hx
  constructor
  · have hge : front.timestamp ≤ x.timestamp := by
      rcases List.mem_cons.1 hx with h | h
      · subst h; exact le_refl _
      · exact (List.pairwise_cons.1 hsorted).1 x h
    exact Int.ediv_nonneg (by omega) (le_of_lt hpos)
  · exact window_index_mono hpos _ _ (time_sorted_le_getLast _ _ hsorted x hx)

theorem std_sort_insertion_sort : StdSortByTimestamp insertion_sort_by_timestamp := by
  haveI : IsTotal (PacketRecord Nat) (fun a b => a.timestamp ≤ b.timestamp) :=
    ⟨fun a b => le_total a.timestamp b.timestamp⟩
  haveI : IsTrans (PacketRecord Nat) (fun a b => a.timestamp ≤ b.timestamp) :=
    ⟨fun a b c hab hbc => le_trans hab hbc⟩
  constructor
  · intro l
    exact List.perm_insertionSort _ l
  · intro l
    have h := List.sorted_insertionSort (fun a b : PacketRecord Nat => a.timestamp ≤ b.timestamp) l
    exact List.Pairwise.imp (fun {a b} hab => not_lt.2 hab) h

theorem time_sorted_of_std_sort {FlowKeyType : Type}
    {std_sort : PacketVector FlowKeyType → PacketVector FlowKeyType}
    (hsort : StdSortByTimestamp std_sort) (l : PacketVector FlowKeyType) :
    time_sorted (std_sort l) :=
  List.Pairwise.imp (fun {_ _} hab => not_lt.1 hab) (hsort.sorted l)

/-! ## Main results on `parse_pcap` and `parse_pcap_with_epochs` -/

/-- C1: for every positive epoch duration and every non-empty packet list sorted by timestamp,
with first timestamp `t0`, `parse_pcap_with_epochs` returns exactly the non-empty groups
`{p : floor((t_p - t0) / epoch) = k}` in increasing order of `k` (`k` from 0 to the window index
of the last packet, beyond which no packet lies); each returned epoch is the group of one
window index `k`, all its timestamps are in `[t0 + k * epoch, t0 + (k + 1) * epoch)`, and a
packet of the list is in that epoch iff its window index is `k`. -/
theorem parse_pcap_with_epochs_groups_by_window {FlowKeyType : Type} (epoch : Int)
    (hpos : 0 < epoch) (front : PacketRecord FlowKeyType)
    (rest : List (PacketRecord FlowKeyType)) (hsorted : time_sorted (front :: rest)) :
    ∃ epochs, parse_pcap_with_epochs (front :: rest) epoch = some epochs ∧
      epochs = nonempty_window_groups front.timestamp epoch (front :: rest)
        ((window_index front.timestamp epoch
          ((front :: rest).getLast (List.cons_ne_nil _ _))).toNat + 1) ∧
      (∀ p ∈ front :: rest, ∃ k : Nat,
        k < (window_index front.timestamp epoch
          ((front :: rest).getLast (List.cons_ne_nil _ _))).toNat + 1 ∧
        window_index front.timestamp epoch p = (k : Int)) ∧
      (∀ e ∈ epochs, e ≠ [] ∧ ∃ k : Nat,
        e = window_group front.timestamp epoch (front :: rest) k ∧
        (∀ p ∈ e, front.timestamp + (k : Int) * epoch ≤ p.timestamp ∧
          p.timestamp < front.timestamp + ((k : Int) + 1) * epoch) ∧
        (∀ q ∈ front :: rest, q ∈ e ↔ window_index front.timestamp epoch q = (k : Int))) := by
  refine ⟨_, parse_pcap_with_epochs_sorted hpos front rest hsorted, rfl, ?_, ?_⟩
  · intro p hp
    obtain ⟨h0, hK⟩ := window_index_bounds hpos front rest hsorted p hp
    exact ⟨(window_index front.timestamp epoch p).toNat, by omega, by omega⟩
  · intro e he
    constructor
    · have := (List.mem_filter.1 he).2
      intro h
      simp [h] at this
    · obtain ⟨k, _, rfl⟩ := mem_nonempty_window_groups _ _ _ _ e he
      refine ⟨k, rfl, ?_, ?_⟩
      · intro p hp
        exact (window_index_eq_iff hpos p (k : Int)).1 ((mem_window_group _ _ _ k p).1 hp).2
      · intro q hq
        rw [mem_window_group]
        exact ⟨fun h => h.2, fun h => ⟨hq, h⟩⟩

/-- Witness for C1, the specification's scenario: timestamps 0, 50, 99, 100 and 250 ms with an
epoch of 100 ms give the three epochs {0, 50, 99}, {100}, {250}. -/
theorem parse_pcap_with_epochs_groups_by_window_witness :
    0 < epoch_100ms ∧ time_sorted scenario_packets ∧
    parse_pcap_with_epochs scenario_packets epoch_100ms =
      some [[at_ms 0, at_ms 50, at_ms 99], [at_ms 100], [at_ms 250]] := by
  refine ⟨by decide, by decide, ?_⟩
  obtain ⟨epochs, h, heq, _, _⟩ := parse_pcap_with_epochs_groups_by_window epoch_100ms
    (by decide) (at_ms 0) [at_ms 50, at_ms 99, at_ms 100, at_ms 250] (by decide)
  have hlist : scenario_packets = at_ms 0 :: [at_ms 50, at_ms 99, at_ms 100, at_ms 250] := rfl
  rw [hlist, h, heq]
  decide

/-- C2: for every epoch duration `epoch ≥ 0` and every packet list, `parse_pcap_with_epochs`
returns, and the concatenation of its epochs in output order is the packet list itself; in
particular, for the time-sorted list returned by `parse_pcap` (whatever the capture and the
sorting routine) every packet is in exactly one epoch, none lost, duplicated or reordered. -/
theorem parse_pcap_with_epochs_flatten {FlowKeyType : Type} [DecidableEq FlowKeyType]
    [Inhabited FlowKeyType] (epoch : Int) (hnonneg : 0 ≤ epoch) :
    (∀ packets : PacketVector FlowKeyType,
      ∃ epochs, parse_pcap_with_epochs packets epoch = some epochs ∧
        epochs.flatten = packets) ∧
    (∀ (std_sort : PacketVector FlowKeyType → PacketVector FlowKeyType)
      (capture : List (PacketRecord FlowKeyType)),
      ∃ epochs, parse_pcap_with_epochs (parse_pcap std_sort capture) epoch = some epochs ∧
        epochs.flatten = parse_pcap std_sort capture) := by
  have key : ∀ packets : PacketVector FlowKeyType,
      ∃ epochs, parse_pcap_with_epochs packets epoch = some epochs ∧
        epochs.flatten = packets := by
    intro packets
    rcases eq_or_lt_of_le hnonneg with h0 | hpos
    · refine ⟨[packets], ?_, by simp⟩
      simp [parse_pcap_with_epochs, ← h0]
    · obtain ⟨epochs, h, hflat, _⟩ := parse_pcap_with_epochs_of_pos hpos packets
      exact ⟨epochs, h, hflat⟩
  exact ⟨key, fun std_sort capture => key (parse_pcap std_sort capture)⟩

/-- Witness for C2: a capture in file order, sorted by `parse_pcap`, split at 100 ms. -/
theorem parse_pcap_with_epochs_flatten_witness :
    0 ≤ epoch_100ms ∧
    ∃ epochs, parse_pcap_with_epochs
        (parse_pcap insertion_sort_by_timestamp unsorted_capture) epoch_100ms = some epochs ∧
      epochs.flatten = parse_pcap insertion_sort_by_timestamp unsorted_capture :=
  ⟨by decide, (parse_pcap_with_epochs_flatten epoch_100ms (by decide)).2
    insertion_sort_by_timestamp unsorted_capture⟩

/-- C3: for every positive epoch duration and every packet list, `parse_pcap_with_epochs`
returns and none of the returned epochs is empty; a capture without any valid packet gives the
empty sequence of epochs, for which the test of `main` reporting "No packets found" holds. -/
theorem parse_pcap_with_epochs_no_empty_epoch {FlowKeyType : Type} [DecidableEq FlowKeyType]
    [Inhabited FlowKeyType] (epoch : Int) (hpos : 0 < epoch) :
    (∀ packets : PacketVector FlowKeyType,
      ∃ epochs, parse_pcap_with_epochs packets epoch = some epochs ∧ ∀ e ∈ epochs, e ≠ []) ∧
    (∀ (std_sort : PacketVector FlowKeyType → PacketVector FlowKeyType)
      (capture : List (PacketRecord FlowKeyType)),
      StdSortByTimestamp std_sort → (∀ record ∈ capture, record.flow = default) →
      ∃ epochs, parse_pcap_with_epochs (parse_pcap std_sort capture) epoch = some epochs ∧
        epochs = [] ∧ no_packets_found epochs = true) := by
  constructor
  · intro packets
    obtain ⟨epochs, h, _, hne⟩ := parse_pcap_with_epochs_of_pos hpos packets
    exact ⟨epochs, h, hne⟩
  · intro std_sort capture hsort hnull
    have hfilter : capture.filter (fun record => decide (record.flow ≠ default)) = [] := by
      rw [List.filter_eq_nil_iff]
      intro record hrecord
      simp [hnull record hrecord]
    have hnil : parse_pcap std_sort capture = [] := by
      rw [parse_pcap, hfilter]
      exact List.Perm.eq_nil (hsort.perm [])
    refine ⟨[], ?_, rfl, rfl⟩
    rw [hnil]
    simp [parse_pcap_with_epochs, ne_of_gt hpos, epoch_windows, remove_empty]

/-- Witness for C3: the scenario with a gap between 100 ms and 250 ms. -/
theorem parse_pcap_with_epochs_no_empty_epoch_witness :
    0 < epoch_100ms ∧
    ∃ epochs, parse_pcap_with_epochs [at_ms 0, at_ms 250] epoch_100ms = some epochs ∧
      ∀ e ∈ epochs, e ≠ [] :=
  ⟨by decide, (@parse_pcap_with_epochs_no_empty_epoch Nat _ _ epoch_100ms
    (by decide)).1 [at_ms 0, at_ms 250]⟩

/-- C4: with an epoch duration of 0, `parse_pcap_with_epochs` returns exactly one epoch, which
is the whole packet list returned by `parse_pcap` (for every packet list, that one included). -/
theorem parse_pcap_with_epochs_zero {FlowKeyType : Type} [DecidableEq FlowKeyType]
    [Inhabited FlowKeyType] :
    (∀ packets : PacketVector FlowKeyType,
      parse_pcap_with_epochs packets 0 = some [packets]) ∧
    (∀ (std_sort : PacketVector FlowKeyType → PacketVector FlowKeyType)
      (capture : List (PacketRecord FlowKeyType)),
      parse_pcap_with_epochs (parse_pcap std_sort capture) 0 =
        some [parse_pcap std_sort capture]) :=
  ⟨fun _ => by simp [parse_pcap_with_epochs], fun _ _ => by simp [parse_pcap_with_epochs]⟩

/-- C5, as stated, fails: with epoch duration 0 and the empty packet list the returned
sequence is the single empty epoch. -/
theorem parse_pcap_with_epochs_zero_empty :
    parse_pcap_with_epochs ([] : PacketVector Nat) 0 = some [[]] ∧
    ¬ (∀ (epoch : Int) (packets : PacketVector Nat), 0 ≤ epoch →
        ∃ epochs, parse_pcap_with_epochs packets epoch = some epochs ∧
          ∀ e ∈ epochs, e ≠ []) := by
  refine ⟨by decide, ?_⟩
  intro h
  obtain ⟨epochs, heq, hne⟩ := h 0 [] (le_refl _)
  have h0 : parse_pcap_with_epochs ([] : PacketVector Nat) 0 = some [[]] := by decide
  rw [h0] at heq
  have : epochs = [[]] := (Option.some.inj heq).symm
  subst this
  exact hne [] (by simp) rfl

/-- C5, amended: for every epoch duration `epoch ≥ 0` and every packet list,
`parse_pcap_with_epochs` returns; the returned sequence contains no empty epoch when
`epoch > 0` or the packet list is non-empty, and it is the single empty epoch when `epoch = 0`
and the packet list is empty. -/
theorem parse_pcap_with_epochs_no_empty_epoch_unless_zero {FlowKeyType : Type} (epoch : Int)
    (hnonneg : 0 ≤ epoch) (packets : PacketVector FlowKeyType) :
    ∃ epochs, parse_pcap_with_epochs packets epoch = some epochs ∧
      ((0 < epoch ∨ packets ≠ []) → ∀ e ∈ epochs, e ≠ []) ∧
      (epoch = 0 → packets = [] → epochs = [[]]) := by
  rcases eq_or_lt_of_le hnonneg with h0 | hpos
  · subst h0
    refine ⟨[packets], by simp [parse_pcap_with_epochs], ?_, ?_⟩
    · intro h e he
      rcases h with h | h
      · exact absurd h (lt_irrefl _)
      · rw [List.mem_singleton] at he
        rw [he]
        exact h
    · intro _ h
      rw [h]
  · obtain ⟨epochs, h, _, hne⟩ := parse_pcap_with_epochs_of_pos hpos packets
    exact ⟨epochs, h, fun _ => hne, fun h0 => absurd h0 (ne_of_gt hpos)⟩

/-- Witness for amended C5: epoch duration 0 on the scenario's packets. -/
theorem parse_pcap_with_epochs_no_empty_epoch_unless_zero_witness :
    (0 : Int) ≤ 0 ∧
    ∃ epochs, parse_pcap_with_epochs scenario_packets 0 = some epochs ∧
      ((0 < (0 : Int) ∨ scenario_packets ≠ []) → ∀ e ∈ epochs, e ≠ []) ∧
      ((0 : Int) = 0 → scenario_packets = [] → epochs = [[]]) :=
  ⟨le_refl _, parse_pcap_with_epochs_no_empty_epoch_unless_zero 0 (le_refl _) scenario_packets⟩

/-- C6: the list returned by `parse_pcap` is a permutation of the valid records of the capture
(those whose flow is not the default key) and is sorted by timestamp ascending; hence, for
every positive epoch duration, `parse_pcap_with_epochs` returns epochs inside each of which
timestamps are non-decreasing, and every timestamp of an epoch is strictly smaller than every
timestamp of any later epoch. -/
theorem parse_pcap_sorted_and_epochs_ordered {FlowKeyType : Type} [DecidableEq FlowKeyType]
    [Inhabited FlowKeyType] (std_sort : PacketVector FlowKeyType → PacketVector FlowKeyType)
    (hsort : StdSortByTimestamp std_sort) (capture : List (PacketRecord FlowKeyType)) :
    (parse_pcap std_sort capture).Perm
      (capture.filter (fun record => decide (record.flow ≠ default))) ∧
    time_sorted (parse_pcap std_sort capture) ∧
    ∀ epoch : Int, 0 < epoch →
      ∃ epochs, parse_pcap_with_epochs (parse_pcap std_sort capture) epoch = some epochs ∧
        (∀ e ∈ epochs, time_sorted e) ∧
        epochs.Pairwise (fun e1 e2 => ∀ p ∈ e1, ∀ q ∈ e2, p.timestamp < q.timestamp) := by
  have hsorted : time_sorted (parse_pcap std_sort capture) := time_sorted_of_std_sort hsort _
  refine ⟨hsort.perm _, hsorted, ?_⟩
  intro epoch hpos
  cases hpackets : parse_pcap std_sort capture with
  | nil =>
    exact ⟨[], by simp [parse_pcap_with_epochs, ne_of_gt hpos, epoch_windows, remove_empty],
      by simp, by simp⟩
  | cons front rest =>
    rw [hpackets] at hsorted
    refine ⟨_, parse_pcap_with_epochs_sorted hpos front rest hsorted, ?_, ?_⟩
    · intro e he
      obtain ⟨k, _, rfl⟩ := mem_nonempty_window_groups _ _ _ _ e he
      exact time_sorted_window_group _ _ _ hsorted k
    · exact nonempty_window_groups_pairwise hpos _ _

/-- Witness for C6: a capture in file order with one invalid record, sorted by insertion sort
and split at 100 ms. -/
theorem parse_pcap_sorted_and_epochs_ordered_witness :
    parse_pcap insertion_sort_by_timestamp unsorted_capture =
      [⟨5, 0⟩, ⟨7, 100000000⟩, ⟨7, 250000000⟩] ∧
    time_sorted (parse_pcap insertion_sort_by_timestamp unsorted_capture) ∧
    parse_pcap_with_epochs (parse_pcap insertion_sort_by_timestamp unsorted_capture)
      epoch_100ms = some [[⟨5, 0⟩], [⟨7, 100000000⟩], [⟨7, 250000000⟩]] :=
  ⟨by decide,
    (parse_pcap_sorted_and_epochs_ordered insertion_sort_by_timestamp std_sort_insertion_sort
      unsorted_capture).2.1,
    by decide⟩

/-! ## The heavy-hitter threshold -/

/-- On a non-negative value whose integer part is a `uint32_t`, the conversion is the floor. -/
theorem static_cast_uint32_of_nonneg (x : ℚ) (hx : 0 ≤ x) (hrange : ⌊x⌋₊ < 2 ^ 32) :
    static_cast_uint32 x = some ⌊x⌋₊ := by
  have htdiv : Int.tdiv x.num x.den = ⌊x⌋ := by
    rw [Int.tdiv_eq_ediv (Rat.num_nonneg.2 hx) (Int.ofNat_nonneg _), Rat.floor_def]
  have hfloor : 0 ≤ ⌊x⌋ := Int.floor_nonneg.2 hx
  have hnat : ⌊x⌋.toNat = ⌊x⌋₊ := Int.floor_toNat x
  have hlt : ⌊x⌋ < 2 ^ 32 := by
    have : (⌊x⌋.toNat : Int) < ((2 ^ 32 : Nat) : Int) := by
      rw [hnat]; exact_mod_cast hrange
    rw [Int.toNat_of_nonneg hfloor] at this
    exact_mod_cast this
  simp only [static_cast_uint32, htdiv]
  rw [if_pos ⟨hfloor, hlt⟩, hnat]

/-! ## Accumulators of `evaluate` -/

/-- A counter that a fold increments modulo `m`. -/
theorem foldl_wrapping_counter {σ α : Type} (f : σ → α → σ) (proj : σ → Nat) (inc : α → Nat)
    (m : Nat) (hstep : ∀ s a, proj s < m → proj (f s a) = (proj s + inc a) % m) (hm : 0 < m) :
    ∀ (l : List α) (s : σ), proj s < m →
      proj (l.foldl f s) = (proj s + (l.map inc).sum) % m := by
  intro l
  induction l with
  | nil => intro s hs; simp [Nat.mod_eq_of_lt hs]
  | cons a l ih =>
    intro s hs
    have hlt : proj (f s a) < m := by rw [hstep s a hs]; exact Nat.mod_lt _ hm
    rw [List.foldl_cons, ih (f s a) hlt, hstep s a hs, List.map_cons, List.sum_cons,
      Nat.mod_add_mod, Nat.add_assoc]

/-- A rational accumulator that a fold adds to. -/
theorem foldl_rat_sum {σ α : Type} (f : σ → α → σ) (proj : σ → ℚ) (g : α → ℚ)
    (hstep : ∀ s a, proj (f s a) = proj s + g a) :
    ∀ (l : List α) (s : σ), proj (l.foldl f s) = proj s + (l.map g).sum := by
  intro l
  induction l with
  | nil => intro s; simp
  | cons a l ih =>
    intro s
    rw [List.foldl_cons, ih (f s a), hstep s a, List.map_cons, List.sum_cons, add_assoc]

theorem sum_map_indicator {α : Type} (p : α → Bool) (l : List α) :
    (l.map (fun a => if p a then 1 else 0)).sum = l.countP p := by
  induction l with
  | nil => rfl
  | cons a l ih =>
    rw [List.map_cons, List.sum_cons, ih, List.countP_cons]
    by_cases h : p a <;> simp [h, Nat.add_comm]

theorem sum_map_ite_eq_sum_filter {α : Type} (p : α → Bool) (g : α → ℚ) (l : List α) :
    (l.map (fun a => if p a then g a else 0)).sum = ((l.filter p).map g).sum := by
  induction l with
  | nil => rfl
  | cons a l ih =>
    rw [List.map_cons, List.sum_cons, ih]
    by_cases h : p a <;> simp [h]

theorem sum_map_one {α : Type} (l : List α) : (l.map (fun _ => 1)).sum = l.length := by
  induction l with
  | nil => rfl
  | cons a l ih => rw [List.map_cons, List.sum_cons, ih, List.length_cons, Nat.add_comm]

/-- One confusion-matrix update moves exactly the cell of the flow's classification. -/
theorem confusion_cell_count_heavy_hitter (metric : HeavyHitterMetric)
    (is_heavy_ideal is_heavy_estimated heavy_ideal heavy_estimated : Bool) :
    confusion_cell (count_heavy_hitter metric is_heavy_ideal is_heavy_estimated)
        heavy_ideal heavy_estimated =
      if (is_heavy_ideal == heavy_ideal && is_heavy_estimated == heavy_estimated) = true then
        (confusion_cell metric heavy_ideal heavy_estimated + 1) % 2 ^ 32
      else confusion_cell metric heavy_ideal heavy_estimated := by
  cases is_heavy_ideal <;> cases is_heavy_estimated <;> cases heavy_ideal <;>
    cases heavy_estimated <;> simp [count_heavy_hitter, confusion_cell]

/-- Every cell of the confusion matrix after the loop is the number of flows of that
classification, modulo `2^32`. -/
theorem confusion_cell_evaluate_loop {FlowKeyType : Type}
    (ideal_data : List (FlowKeyType × Nat)) (query : FlowKeyType → Nat) (threshold : Nat)
    (heavy_ideal heavy_estimated : Bool) :
    confusion_cell (evaluate_loop ideal_data query threshold).heavy_hitter_metric_
        heavy_ideal heavy_estimated =
      count_flows ideal_data query threshold heavy_ideal heavy_estimated % 2 ^ 32 := by
  have h := foldl_wrapping_counter (evaluate_flow query threshold)
    (fun s => confusion_cell s.heavy_hitter_metric_ heavy_ideal heavy_estimated)
    (fun pair => if (is_heavy threshold pair.2 == heavy_ideal &&
      is_heavy threshold (query pair.1) == heavy_estimated) = true then 1 else 0)
    (2 ^ 32)
    (by
      intro s pair hs
      simp only [evaluate_flow, confusion_cell_count_heavy_hitter, is_heavy]
      split
      · rfl
      · exact (Nat.mod_eq_of_lt hs).symm)
    (by norm_num) ideal_data { heavy_hitter_metric_ := { threshold := threshold } }
    (by cases heavy_ideal <;> cases heavy_estimated <;> simp [confusion_cell])
  beta_reduce at h
  simp only [evaluate_loop, count_flows]
  rw [h, sum_map_indicator]
  congr 1
  cases heavy_ideal <;> cases heavy_estimated <;> simp [confusion_cell]

theorem heavy_hitter_metric_evaluate {FlowKeyType : Type}
    (ideal_data : List (FlowKeyType × Nat)) (query : FlowKeyType → Nat) (threshold : Nat)
    (heavy_ideal heavy_estimated : Bool) :
    confusion_cell (evaluate ideal_data query threshold).heavy_hitter_metric_
        heavy_ideal heavy_estimated =
      count_flows ideal_data query threshold heavy_ideal heavy_estimated % 2 ^ 32 := by
  cases ideal_data with
  | nil => cases heavy_ideal <;> cases heavy_estimated <;> rfl
  | cons pair rest =>
    have : evaluate (pair :: rest) query threshold =
        { error_metric_ := (evaluate (pair :: rest) query threshold).error_metric_
          heavy_hitter_metric_ :=
            (evaluate_loop (pair :: rest) query threshold).heavy_hitter_metric_ } := rfl
    rw [this]
    exact confusion_cell_evaluate_loop (pair :: rest) query threshold heavy_ideal heavy_estimated

theorem count_flows_le_length {FlowKeyType : Type}
    (ideal_data : List (FlowKeyType × Nat)) (query : FlowKeyType → Nat) (threshold : Nat)
    (heavy_ideal heavy_estimated : Bool) :
    count_flows ideal_data query threshold heavy_ideal heavy_estimated ≤ ideal_data.length :=
  List.countP_le_length _

theorem total_flows_evaluate_loop {FlowKeyType : Type}
    (ideal_data : List (FlowKeyType × Nat)) (query : FlowKeyType → Nat) (threshold : Nat) :
    (evaluate_loop ideal_data query threshold).total_flows = ideal_data.length % 2 ^ 32 := by
  have h := foldl_wrapping_counter (evaluate_flow query threshold)
    (fun s => s.total_flows) (fun _ => 1) (2 ^ 32) (by intro s pair _; rfl) (by norm_num)
    ideal_data { heavy_hitter_metric_ := { threshold := threshold } } (by norm_num)
  beta_reduce at h
  simp only [evaluate_loop]
  rw [h, sum_map_one]
  simp

theorem total_packets_evaluate_loop {FlowKeyType : Type}
    (ideal_data : List (FlowKeyType × Nat)) (query : FlowKeyType → Nat) (threshold : Nat) :
    (evaluate_loop ideal_data query threshold).total_packets =
      true_count_sum ideal_data % 2 ^ 64 := by
  have h := foldl_wrapping_counter (evaluate_flow query threshold)
    (fun s => s.total_packets) (fun pair => pair.2) (2 ^ 64) (by intro s pair _; rfl)
    (by norm_num) ideal_data { heavy_hitter_metric_ := { threshold := threshold } }
    (by norm_num)
  beta_reduce at h
  simp only [evaluate_loop, true_count_sum]
  rw [h]
  simp

theorem sum_relative_error_evaluate_loop {FlowKeyType : Type}
    (ideal_data : List (FlowKeyType × Nat)) (query : FlowKeyType → Nat) (threshold : Nat) :
    (evaluate_loop ideal_data query threshold).sum_relative_error =
      relative_error_sum ideal_data query := by
  have h := foldl_rat_sum (evaluate_flow query threshold) (fun s => s.sum_relative_error)
    (fun pair => if decide (0 < pair.2) = true then
      |(pair.2 : ℚ) - (query pair.1 : ℚ)| / (pair.2 : ℚ) else 0)
    (by
      intro s pair
      simp only [evaluate_flow]
      by_cases hp : pair.2 > 0 <;> simp [hp])
    ideal_data { heavy_hitter_metric_ := { threshold := threshold } }
  beta_reduce at h
  simp only [evaluate_loop, relative_error_sum, positive_flows]
  rw [h, sum_map_ite_eq_sum_filter]
  simp

theorem sum_weighted_relative_error_evaluate_loop {FlowKeyType : Type}
    (ideal_data : List (FlowKeyType × Nat)) (query : FlowKeyType → Nat) (threshold : Nat) :
    (evaluate_loop ideal_data query threshold).sum_weighted_relative_error =
      absolute_error_sum_of_positive ideal_data query := by
  have h := foldl_rat_sum (evaluate_flow query threshold)
    (fun s => s.sum_weighted_relative_error)
    (fun pair => if decide (0 < pair.2) = true then
      |(pair.2 : ℚ) - (query pair.1 : ℚ)| else 0)
    (by
      intro s pair
      simp only [evaluate_flow]
      by_cases hp : pair.2 > 0
      · have hne : (pair.2 : ℚ) ≠ 0 := by exact_mod_cast (Nat.pos_iff_ne_zero.1 hp)
        simp [hp, div_mul_cancel₀ _ hne]
      · simp [hp])
    ideal_data { heavy_hitter_metric_ := { threshold := threshold } }
  beta_reduce at h
  simp only [evaluate_loop, absolute_error_sum_of_positive, positive_flows]
  rw [h, sum_map_ite_eq_sum_filter]
  simp

theorem count_flows_eq_countP {FlowKeyType : Type} (ideal_data : List (FlowKeyType × Nat))
    (query : FlowKeyType → Nat) (threshold : Nat) :
    count_flows ideal_data query threshold true true =
        ideal_data.countP (fun pair => decide (pair.2 ≥ threshold ∧ query pair.1 ≥ threshold)) ∧
    count_flows ideal_data query threshold true false =
        ideal_data.countP (fun pair => decide (pair.2 ≥ threshold ∧ query pair.1 < threshold)) ∧
    count_flows ideal_data query threshold false true =
        ideal_data.countP (fun pair => decide (pair.2 < threshold ∧ query pair.1 ≥ threshold)) ∧
    count_flows ideal_data query threshold false false =
        ideal_data.countP (fun pair => decide (pair.2 < threshold ∧ query pair.1 < threshold)) := by
  refine ⟨?_, ?_, ?_, ?_⟩ <;>
  · simp only [count_flows, is_heavy]
    apply List.countP_congr
    intro pair _
    simp

theorem are_evaluate_of_ne_nil {FlowKeyType : Type} (ideal_data : List (FlowKeyType × Nat))
    (query : FlowKeyType → Nat) (threshold : Nat) (hne : ideal_data ≠ []) :
    (evaluate ideal_data query threshold).error_metric_.are =
      if (evaluate_loop ideal_data query threshold).total_flows > 0 then
        (evaluate_loop ideal_data query threshold).sum_relative_error /
          ((evaluate_loop ideal_data query threshold).total_flows : ℚ)
      else 0 := by
  cases ideal_data with
  | nil => exact absurd rfl hne
  | cons pair rest => rfl

theorem wmre_evaluate_of_ne_nil {FlowKeyType : Type} (ideal_data : List (FlowKeyType × Nat))
    (query : FlowKeyType → Nat) (threshold : Nat) (hne : ideal_data ≠ []) :
    (evaluate ideal_data query threshold).error_metric_.wmre =
      if (evaluate_loop ideal_data query threshold).total_packets > 0 then
        (evaluate_loop ideal_data query threshold).sum_weighted_relative_error /
          ((evaluate_loop ideal_data query threshold).total_packets : ℚ)
      else 0 := by
  cases ideal_data with
  | nil => exact absurd rfl hne
  | cons pair rest => rfl

theorem confusion_cell_true_true (metric : HeavyHitterMetric) :
    confusion_cell metric true true = metric.tp := rfl

/-! ## Main results on `ResultMetrics::evaluate` -/

/-- On `n` flows seen once and estimated 1, at threshold 1, `tp` is `n % 2^32`, while the
number of flows heavy in truth and in estimate is `n`. -/
theorem evaluate_ideal_of_size (n : Nat) :
    (evaluate (ideal_of_size n) (fun _ => 1) 1).heavy_hitter_metric_.tp = n % 2 ^ 32 ∧
    (ideal_of_size n).countP (fun pair => decide (pair.2 ≥ 1 ∧ (fun _ => 1) pair.1 ≥ 1)) = n := by
  have hcount : (ideal_of_size n).countP
      (fun pair => decide (pair.2 ≥ 1 ∧ (fun _ => 1) pair.1 ≥ 1)) = n := by
    have hall : ∀ pair ∈ ideal_of_size n,
        (fun pair : (Nat × Nat) × Nat =>
          decide (pair.2 ≥ 1 ∧ (fun _ => 1) pair.1 ≥ 1)) pair = true := by
      intro pair hpair
      simp only [ideal_of_size, List.mem_map] at hpair
      obtain ⟨i, _, rfl⟩ := hpair
      simp
    rw [List.countP_eq_length.2 hall]
    simp [ideal_of_size]
  refine ⟨?_, hcount⟩
  have h := heavy_hitter_metric_evaluate (ideal_of_size n) (fun _ => 1) 1 true true
  have h1 := (count_flows_eq_countP (ideal_of_size n) (fun _ => 1) 1).1
  rw [confusion_cell_true_true] at h
  exact h.trans (by rw [h1, hcount])

/-- C8, as stated, fails: on an Ideal map of `2^32` flows that are all heavy in truth and in
estimate, the 32-bit counter `tp` has wrapped to 0, while the number of such flows is `2^32`. -/
theorem evaluate_tp_wraps :
    (evaluate (ideal_of_size (2 ^ 32)) (fun _ => 1) 1).heavy_hitter_metric_.tp = 0 ∧
    (ideal_of_size (2 ^ 32)).countP
      (fun pair => decide (pair.2 ≥ 1 ∧ (fun _ => 1) pair.1 ≥ 1)) = 2 ^ 32 := by
  have h := evaluate_ideal_of_size (2 ^ 32)
  rw [Nat.mod_self] at h
  exact h

/-- C8, amended: for every Ideal map with fewer than `2^32` flows, every sketch and every
threshold, `evaluate` counts in `tp` the flows with true count `≥ threshold` and estimate
`≥ threshold`, in `fn` those with true count `≥ threshold` and estimate `< threshold`, in `fp`
those with true count `< threshold` and estimate `≥ threshold`, and in `tn` those with both
below the threshold. -/
theorem evaluate_confusion_matrix {FlowKeyType : Type} (ideal_data : List (FlowKeyType × Nat))
    (query : FlowKeyType → Nat) (threshold : Nat) (hflows : ideal_data.length < 2 ^ 32) :
    (evaluate ideal_data query threshold).heavy_hitter_metric_.tp =
        ideal_data.countP (fun pair => decide (pair.2 ≥ threshold ∧ query pair.1 ≥ threshold)) ∧
    (evaluate ideal_data query threshold).heavy_hitter_metric_.fn =
        ideal_data.countP (fun pair => decide (pair.2 ≥ threshold ∧ query pair.1 < threshold)) ∧
    (evaluate ideal_data query threshold).heavy_hitter_metric_.fp =
        ideal_data.countP (fun pair => decide (pair.2 < threshold ∧ query pair.1 ≥ threshold)) ∧
    (evaluate ideal_data query threshold).heavy_hitter_metric_.tn =
        ideal_data.countP (fun pair => decide (pair.2 < threshold ∧ query pair.1 < threshold)) := by
  have hcell : ∀ heavy_ideal heavy_estimated : Bool,
      confusion_cell (evaluate ideal_data query threshold).heavy_hitter_metric_
          heavy_ideal heavy_estimated =
        count_flows ideal_data query threshold heavy_ideal heavy_estimated := by
    intro heavy_ideal heavy_estimated
    rw [heavy_hitter_metric_evaluate]
    exact Nat.mod_eq_of_lt
      (lt_of_le_of_lt (count_flows_le_length ideal_data query threshold _ _) hflows)
  obtain ⟨h1, h2, h3, h4⟩ := count_flows_eq_countP ideal_data query threshold
  exact ⟨(hcell true true).trans h1, (hcell true false).trans h2, (hcell false true).trans h3,
    (hcell false false).trans h4⟩

/-- Witness for amended C8: three flows with true counts 1, 2, 5 and estimates 1, 1, 4 at
threshold 2 give one true negative, one false negative and one true positive. -/
theorem evaluate_confusion_matrix_witness :
    small_ideal.length < 2 ^ 32 ∧
    (evaluate small_ideal small_query 2).heavy_hitter_metric_.tp = 1 ∧
    (evaluate small_ideal small_query 2).heavy_hitter_metric_.fn = 1 ∧
    (evaluate small_ideal small_query 2).heavy_hitter_metric_.fp = 0 ∧
    (evaluate small_ideal small_query 2).heavy_hitter_metric_.tn = 1 := by
  obtain ⟨h1, h2, h3, h4⟩ := evaluate_confusion_matrix small_ideal small_query 2 (by decide)
  rw [h1, h2, h3, h4]
  decide

/-- C9, as stated, fails: on an Ideal map with a flow of true count 0 and a flow of true
count 2 estimated 1, the ARE computed is 1/4 (the sum 1/2 over both flows of the map), while
the mean over the flows with `true > 0` is 1/2. -/
theorem evaluate_are_counts_zero_flows :
    (evaluate ideal_with_zero (fun _ => 1) 1).error_metric_.are = 1 / 4 ∧
    relative_error_sum ideal_with_zero (fun _ => 1) /
      ((positive_flows ideal_with_zero).length : ℚ) = 1 / 2 := by
  constructor
  · norm_num [evaluate, evaluate_loop, evaluate_flow, ideal_with_zero]
  · norm_num [relative_error_sum, positive_flows, ideal_with_zero]

/-- C9, amended: for every non-empty Ideal map with fewer than `2^32` flows and every sketch,
the ARE computed by `evaluate` is the sum, over the flows whose true count is greater than 0,
of `|true - estimate| / true`, divided by the number of all flows of the map; when every flow
of the map has a true count greater than 0 this is the mean over the flows with `true > 0`
(arithmetic taken as exact). -/
theorem evaluate_are {FlowKeyType : Type} (ideal_data : List (FlowKeyType × Nat))
    (query : FlowKeyType → Nat) (threshold : Nat) (hne : ideal_data ≠ [])
    (hflows : ideal_data.length < 2 ^ 32) :
    (evaluate ideal_data query threshold).error_metric_.are =
      relative_error_sum ideal_data query / (ideal_data.length : ℚ) ∧
    ((∀ pair ∈ ideal_data, 0 < pair.2) →
      (evaluate ideal_data query threshold).error_metric_.are =
        relative_error_sum ideal_data query / ((positive_flows ideal_data).length : ℚ)) := by
  have hlen : 0 < ideal_data.length := List.length_pos.2 hne
  have hmain : (evaluate ideal_data query threshold).error_metric_.are =
      relative_error_sum ideal_data query / (ideal_data.length : ℚ) := by
    rw [are_evaluate_of_ne_nil ideal_data query threshold hne, total_flows_evaluate_loop,
      sum_relative_error_evaluate_loop, Nat.mod_eq_of_lt hflows, if_pos hlen]
  refine ⟨hmain, ?_⟩
  intro hall
  have hfilter : positive_flows ideal_data = ideal_data := by
    simp only [positive_flows, List.filter_eq_self]
    intro pair hpair
    simpa using hall pair hpair
  rw [hmain, hfilter]

/-- Witness for amended C9: true counts 1, 2, 5 estimated 1, 1, 4 give the ARE
`(0 + 1/2 + 1/5) / 3`. -/
theorem evaluate_are_witness :
    small_ideal ≠ [] ∧ small_ideal.length < 2 ^ 32 ∧
    (evaluate small_ideal small_query 2).error_metric_.are = 7 / 30 := by
  refine ⟨by decide, by decide, ?_⟩
  rw [(evaluate_are small_ideal small_query 2 (by decide) (by decide)).1]
  norm_num [relative_error_sum, positive_flows, small_ideal, small_query]

/-- C10: for every Ideal map whose true counts sum to a positive total and every sketch, the
WMRE computed by `evaluate` as `sum(relative_error * true_count) / total_packets` equals the
sum over the flows with `true > 0` of `|true - estimate|`, divided by the sum over all flows of
the true count.  Arithmetic is taken as exact: rational for `double`, and the 64-bit total
does not overflow. -/
theorem evaluate_wmre {FlowKeyType : Type} (ideal_data : List (FlowKeyType × Nat))
    (query : FlowKeyType → Nat) (threshold : Nat) (hpos : 0 < true_count_sum ideal_data)
    (hexact : true_count_sum ideal_data < 2 ^ 64) :
    (evaluate ideal_data query threshold).error_metric_.wmre =
      absolute_error_sum_of_positive ideal_data query / (true_count_sum ideal_data : ℚ) := by
  have hne : ideal_data ≠ [] := by
    intro h
    rw [h] at hpos
    exact absurd hpos (by simp [true_count_sum])
  rw [wmre_evaluate_of_ne_nil ideal_data query threshold hne, total_packets_evaluate_loop,
    sum_weighted_relative_error_evaluate_loop, Nat.mod_eq_of_lt hexact, if_pos hpos]

/-- Witness for C10: true counts 1, 2, 5 estimated 1, 1, 4 give the WMRE `(0 + 1 + 1) / 8`. -/
theorem evaluate_wmre_witness :
    0 < true_count_sum small_ideal ∧ true_count_sum small_ideal < 2 ^ 64 ∧
    (evaluate small_ideal small_query 2).error_metric_.wmre = 1 / 4 := by
  refine ⟨by decide, by decide, ?_⟩
  rw [evaluate_wmre small_ideal small_query 2 (by decide) (by decide)]
  norm_num [absolute_error_sum_of_positive, positive_flows, true_count_sum, small_ideal,
    small_query]

/-! ## Average absolute error -/

theorem sum_absolute_error_evaluate_loop {FlowKeyType : Type}
    (ideal_data : List (FlowKeyType × Nat)) (query : FlowKeyType → Nat) (threshold : Nat) :
    (evaluate_loop ideal_data query threshold).sum_absolute_error =
      absolute_error_sum ideal_data query := by
  have h := foldl_rat_sum (evaluate_flow query threshold) (fun s => s.sum_absolute_error)
    (fun pair => |(pair.2 : ℚ) - (query pair.1 : ℚ)|) (by intro s pair; rfl)
    ideal_data { heavy_hitter_metric_ := { threshold := threshold } }
  beta_reduce at h
  simp only [evaluate_loop, absolute_error_sum]
  rw [h]
  simp

theorem aae_evaluate_of_ne_nil {FlowKeyType : Type} (ideal_data : List (FlowKeyType × Nat))
    (query : FlowKeyType → Nat) (threshold : Nat) (hne : ideal_data ≠ []) :
    (evaluate ideal_data query threshold).error_metric_.aae =
      if (evaluate_loop ideal_data query threshold).total_flows > 0 then
        (evaluate_loop ideal_data query threshold).sum_absolute_error /
          ((evaluate_loop ideal_data query threshold).total_flows : ℚ)
      else 0 := by
  cases ideal_data with
  | nil => exact absurd rfl hne
  | cons pair rest => rfl

/-- C11: for every non-empty Ideal map and every sketch, the AAE computed by `evaluate` is the
sum over all flows of the map of `|true - estimate|`, the estimate being the sketch's query
result for the flow, divided by the number of flows of the map.  Arithmetic is taken as exact:
rational for `double`, and the 32-bit flow counter does not overflow. -/
theorem evaluate_aae {FlowKeyType : Type} (ideal_data : List (FlowKeyType × Nat))
    (query : FlowKeyType → Nat) (threshold : Nat) (hne : ideal_data ≠ [])
    (hexact : ideal_data.length < 2 ^ 32) :
    (evaluate ideal_data query threshold).error_metric_.aae =
      absolute_error_sum ideal_data query / (ideal_data.length : ℚ) := by
  have hlen : 0 < ideal_data.length := List.length_pos.2 hne
  rw [aae_evaluate_of_ne_nil ideal_data query threshold hne, total_flows_evaluate_loop,
    sum_absolute_error_evaluate_loop, Nat.mod_eq_of_lt hexact, if_pos hlen]

/-- Witness for C11: true counts 1, 2, 5 estimated 1, 1, 4 give the AAE `(0 + 1 + 1) / 3`. -/
theorem evaluate_aae_witness :
    small_ideal ≠ [] ∧ small_ideal.length < 2 ^ 32 ∧
    (evaluate small_ideal small_query 2).error_metric_.aae = 2 / 3 := by
  refine ⟨by decide, by decide, ?_⟩
  rw [evaluate_aae small_ideal small_query 2 (by decide) (by decide)]
  norm_num [absolute_error_sum, small_ideal, small_query]

/-! ## Windows created, windows kept -/

theorem length_window_groups {FlowKeyType : Type} (t0 epoch : Int)
    (packets : PacketVector FlowKeyType) (n : Nat) :
    (window_groups t0 epoch packets n).length = n := by
  simp [window_groups]

/-- C18: for every positive epoch duration and every non-empty time-sorted packet list, the
window-advancing `while` loop terminates (it returns for every fuel of at least the offset, in
particular for each packet of the `for` loop), the `for` loop returns, and the windows it has
created before the empty ones are removed number exactly
`floor((t_last - t0) / epoch) + 1`, for `t0` and `t_last` the first and last timestamps.  On
the empty list the function returns before creating any window. -/
theorem epoch_windows_length {FlowKeyType : Type} (epoch : Int) (hpos : 0 < epoch)
    (front : PacketRecord FlowKeyType) (rest : List (PacketRecord FlowKeyType))
    (hsorted : time_sorted (front :: rest)) :
    (∀ (ts ces : Int) (result : List (PacketVector FlowKeyType)) (fuel : Nat),
      (ts - ces).toNat ≤ fuel → (advance_window epoch ts fuel ces result).isSome = true) ∧
    (∃ windows, epoch_windows (front :: rest) epoch = some windows ∧
      (windows.length : Int) =
        (((front :: rest).getLast (List.cons_ne_nil _ _)).timestamp - front.timestamp) / epoch
          + 1) ∧
    epoch_windows ([] : PacketVector FlowKeyType) epoch = some [] := by
  refine ⟨?_, ?_, rfl⟩
  · intro ts ces result fuel hfuel
    rw [advance_window_of_pos hpos ts fuel ces result hfuel]
    rfl
  · refine ⟨_, epoch_windows_eq_window_groups hpos front rest hsorted, ?_⟩
    rw [length_window_groups]
    have h0 := (window_index_bounds hpos front rest hsorted
      ((front :: rest).getLast (List.cons_ne_nil _ _)) (List.getLast_mem _)).1
    unfold window_index at h0 ⊢
    omega

/-- Witness for C18: timestamps 0 and 250 ms with an epoch of 100 ms create the three windows
of indices 0, 1, 2, the middle one empty. -/
theorem epoch_windows_length_witness :
    0 < epoch_100ms ∧ time_sorted [at_ms 0, at_ms 250] ∧
    epoch_windows [at_ms 0, at_ms 250] epoch_100ms = some [[at_ms 0], [], [at_ms 250]] ∧
    ∃ windows, epoch_windows [at_ms 0, at_ms 250] epoch_100ms = some windows ∧
      (windows.length : Int) =
        (([at_ms 0, at_ms 250].getLast (List.cons_ne_nil _ _)).timestamp -
          (at_ms 0).timestamp) / epoch_100ms + 1 :=
  ⟨by decide, by decide, by decide,
    (epoch_windows_length epoch_100ms (by decide) (at_ms 0) [at_ms 250] (by decide)).2.1⟩

/-- C14, as stated, fails: for timestamps 0 and 250 ms with an epoch of 100 ms the loop
creates the empty window of 100-200 ms between the two occupied ones, and the output is the
two epochs {0}, {250}: the empty middle window is not in it. -/
theorem parse_pcap_with_epochs_drops_middle_window :
    epoch_windows [at_ms 0, at_ms 250] epoch_100ms = some [[at_ms 0], [], [at_ms 250]] ∧
    parse_pcap_with_epochs [at_ms 0, at_ms 250] epoch_100ms =
      some [[at_ms 0], [at_ms 250]] ∧
    ([] : PacketVector Nat) ∉ [[at_ms 0], [at_ms 250]] := by
  refine ⟨by decide, by decide, by decide⟩

/-- C14, amended: with a positive epoch duration, empty windows are omitted wherever they lie,
in the middle of the sequence as well as at its ends: the output of `parse_pcap_with_epochs`
is the list of windows created by the loop with every empty window removed, so a time window
that contains no packet never appears in the output. -/
theorem parse_pcap_with_epochs_removes_every_empty_window {FlowKeyType : Type} (epoch : Int)
    (hpos : 0 < epoch) (packets : PacketVector FlowKeyType) :
    ∃ windows epochs, epoch_windows packets epoch = some windows ∧
      parse_pcap_with_epochs packets epoch = some epochs ∧
      epochs = windows.filter (fun window => !window.isEmpty) ∧
      [] ∉ epochs := by
  obtain ⟨windows, h, _⟩ := epoch_windows_flatten hpos packets
  refine ⟨windows, remove_empty windows, h, ?_, rfl, ?_⟩
  · simp [parse_pcap_with_epochs, ne_of_gt hpos, h]
  · intro hmem
    exact remove_empty_ne_nil windows [] hmem rfl

/-- Witness for amended C14: timestamps 0 and 250 ms with an epoch of 100 ms give the two
epochs {0}, {250}. -/
theorem parse_pcap_with_epochs_removes_every_empty_window_witness :
    0 < epoch_100ms ∧
    parse_pcap_with_epochs [at_ms 0, at_ms 250] epoch_100ms =
      some [[at_ms 0], [at_ms 250]] := by
  refine ⟨by decide, ?_⟩
  obtain ⟨windows, epochs, h1, h2, h3, _⟩ :=
    parse_pcap_with_epochs_removes_every_empty_window epoch_100ms (by decide)
      [at_ms 0, at_ms 250]
  have hw : epoch_windows [at_ms 0, at_ms 250] epoch_100ms =
      some [[at_ms 0], [], [at_ms 250]] := by decide
  rw [hw] at h1
  have hwindows : windows = [[at_ms 0], [], [at_ms 250]] := (Option.some.inj h1).symm
  rw [h2, h3, hwindows]
  decide

/-! ## The epoch duration chosen by main -/

/-- C13, as stated, fails: with the argument 0 `main` passes 100 ms, not 0, to
`parse_pcap_with_epochs`, and the scenario's packets are split into three epochs instead of
forming a single one. -/
theorem EPOCH_DURATION_of_zero :
    EPOCH_DURATION (some 0) = 100000000 ∧ EPOCH_DURATION (some 0) ≠ 0 ∧
    main_epochs (some 0) scenario_packets =
      some [[at_ms 0, at_ms 50, at_ms 99], [at_ms 100], [at_ms 250]] ∧
    main_epochs (some 0) scenario_packets ≠ some [scenario_packets] := by
  refine ⟨by decide, by decide, by decide, by decide⟩

/-- C13, amended: when the first command-line argument is 0 (or negative), `main` treats it as
invalid and uses the default of 100 ms, so it passes 100 ms to `parse_pcap_with_epochs`;
whatever the argument, the duration `main` passes is positive, never 0, so the single-epoch
mode of `parse_pcap_with_epochs` is not reached from the command line. -/
theorem EPOCH_DURATION_pos (argument : Option Int) :
    ((∃ parsed, argument = some parsed ∧ parsed ≤ 0) → EPOCH_DURATION argument = 100000000) ∧
    0 < EPOCH_DURATION argument ∧ EPOCH_DURATION argument ≠ 0 ∧
    (∀ {FlowKeyType : Type} (packets : PacketVector FlowKeyType),
      main_epochs argument packets = parse_pcap_with_epochs packets (EPOCH_DURATION argument)) := by
  have hpos : 0 < EPOCH_DURATION argument := by
    unfold EPOCH_DURATION epoch_ms
    cases argument with
    | none => decide
    | some parsed =>
      simp only
      split <;> omega
  refine ⟨?_, hpos, ne_of_gt hpos, fun _ => rfl⟩
  rintro ⟨parsed, rfl, hle⟩
  simp [EPOCH_DURATION, epoch_ms, hle]

/-! ## Null flows are dropped -/

theorem std_sort_insertion_sort_records {FlowKeyType : Type} :
    StdSortByTimestamp (insertion_sort_records : PacketVector FlowKeyType → _) := by
  haveI : IsTotal (PacketRecord FlowKeyType) (fun a b => a.timestamp ≤ b.timestamp) :=
    ⟨fun a b => le_total a.timestamp b.timestamp⟩
  haveI : IsTrans (PacketRecord FlowKeyType) (fun a b => a.timestamp ≤ b.timestamp) :=
    ⟨fun a b c hab hbc => le_trans hab hbc⟩
  constructor
  · intro l
    exact List.perm_insertionSort _ l
  · intro l
    have h := List.sorted_insertionSort
      (fun a b : PacketRecord FlowKeyType => a.timestamp ≤ b.timestamp) l
    exact List.Pairwise.imp (fun {a b} hab => not_lt.2 hab) h

/-- Non-negative epoch, any packet list: the function returns epochs whose concatenation is
the packet list. -/
theorem parse_pcap_with_epochs_of_nonneg {FlowKeyType : Type} {epoch : Int}
    (hnonneg : 0 ≤ epoch) (packets : PacketVector FlowKeyType) :
    ∃ epochs, parse_pcap_with_epochs packets epoch = some epochs ∧
      epochs.flatten = packets := by
  rcases eq_or_lt_of_le hnonneg with h0 | hpos
  · refine ⟨[packets], ?_, by simp⟩
    simp [parse_pcap_with_epochs, ← h0]
  · obtain ⟨epochs, h, hflat, _⟩ := parse_pcap_with_epochs_of_pos hpos packets
    exact ⟨epochs, h, hflat⟩

/-- The records kept by `parse_pcap` are, with their multiplicities, the records of the
capture whose flow is not the default key. -/
theorem mem_parse_pcap {FlowKeyType : Type} [DecidableEq FlowKeyType] [Inhabited FlowKeyType]
    {std_sort : PacketVector FlowKeyType → PacketVector FlowKeyType}
    (hsort : StdSortByTimestamp std_sort) (capture : List (PacketRecord FlowKeyType))
    (record : PacketRecord FlowKeyType) :
    record ∈ parse_pcap std_sort capture ↔ record ∈ capture ∧ record.flow ≠ default := by
  rw [parse_pcap, (hsort.perm _).mem_iff, List.mem_filter]
  simp

/-- C15: for every capture, no record of the list returned by `parse_pcap`, hence of no epoch
returned by `parse_pcap_with_epochs`, has the null flow key (the default-constructed key, all
components zero): a packet is dropped exactly when its extracted flow key is the null key,
which is the case of every packet without an IPv4 layer for each of the three key types, and
every other packet is kept, as often as it occurs. -/
theorem parse_pcap_drops_null_flows {FlowKeyType : Type} [DecidableEq FlowKeyType]
    [Inhabited FlowKeyType] (std_sort : PacketVector FlowKeyType → PacketVector FlowKeyType)
    (hsort : StdSortByTimestamp std_sort) (extract_flow : Packet → FlowKeyType)
    (packets : List Packet) :
    (∀ record ∈ parse_pcap std_sort (read_records extract_flow packets),
      record.flow ≠ default) ∧
    (∀ packet ∈ packets, extract_flow packet = default →
      ∀ record ∈ parse_pcap std_sort (read_records extract_flow packets),
        record.flow ≠ extract_flow packet) ∧
    (∀ packet ∈ packets, extract_flow packet ≠ default →
      (⟨extract_flow packet, packet.timestamp⟩ : PacketRecord FlowKeyType) ∈
        parse_pcap std_sort (read_records extract_flow packets)) ∧
    (parse_pcap std_sort (read_records extract_flow packets)).Perm
      ((read_records extract_flow packets).filter
        (fun record => decide (record.flow ≠ default))) ∧
    (∀ epoch : Int, 0 ≤ epoch →
      ∃ epochs, parse_pcap_with_epochs
          (parse_pcap std_sort (read_records extract_flow packets)) epoch = some epochs ∧
        ∀ e ∈ epochs, ∀ record ∈ e, record.flow ≠ default) ∧
    (∀ packet : Packet, packet.ipv4_layer = none →
      extract_flow_one_tuple packet = default ∧ extract_flow_two_tuple packet = default ∧
      extract_flow_five_tuple packet = default) := by
  have hnull : ∀ record ∈ parse_pcap std_sort (read_records extract_flow packets),
      record.flow ≠ default := fun record hrecord =>
    ((mem_parse_pcap hsort _ record).1 hrecord).2
  refine ⟨hnull, ?_, ?_, hsort.perm _, ?_, ?_⟩
  · intro packet _ hdefault record hrecord
    rw [hdefault]
    exact hnull record hrecord
  · intro packet hpacket hne
    rw [mem_parse_pcap hsort]
    refine ⟨?_, hne⟩
    simp only [read_records, List.mem_map]
    exact ⟨packet, hpacket, rfl⟩
  · intro epoch hnonneg
    obtain ⟨epochs, h, hflat⟩ := parse_pcap_with_epochs_of_nonneg hnonneg
      (parse_pcap std_sort (read_records extract_flow packets))
    refine ⟨epochs, h, ?_⟩
    intro e he record hrecord
    apply hnull
    rw [← hflat]
    exact List.mem_flatten.2 ⟨e, he, hrecord⟩
  · intro packet hnone
    simp [extract_flow_one_tuple, extract_flow_two_tuple, extract_flow_five_tuple, hnone]
    exact ⟨rfl, rfl, rfl⟩

/-- Witness for C15: of four packets, the one without IPv4 layer and the one whose IPv4
addresses are both zero are dropped, the two others are kept and sorted by time. -/
theorem parse_pcap_drops_null_flows_witness :
    parse_pcap insertion_sort_records (read_records extract_flow_two_tuple mixed_packets) =
      [⟨⟨10, 30⟩, 200⟩, ⟨⟨10, 20⟩, 300⟩] ∧
    ∀ record ∈ parse_pcap insertion_sort_records
        (read_records extract_flow_two_tuple mixed_packets),
      record.flow ≠ default :=
  ⟨by decide,
    (parse_pcap_drops_null_flows insertion_sort_records std_sort_insertion_sort_records
      extract_flow_two_tuple mixed_packets).1⟩

/-! ## The Ideal counter after process_epoch -/

theorem query_update_entries {FlowKeyType : Type} [DecidableEq FlowKeyType]
    (entries : List (FlowKeyType × Nat)) (k : FlowKeyType) (delta : Nat) (k' : FlowKeyType) :
    query_entries (update_entries entries k delta) k' =
      if k' = k then (query_entries entries k + delta) % 2 ^ 64
      else query_entries entries k' := by
  induction entries with
  | nil =>
    by_cases h : k' = k
    · subst h; simp [update_entries, query_entries]
    · have h' : ¬ k = k' := fun e => h e.symm
      simp [update_entries, query_entries, h, h']
  | cons entry rest ih =>
    obtain ⟨key, count⟩ := entry
    by_cases hkey : key = k
    · subst hkey
      by_cases h : k' = key
      · subst h; simp [update_entries, query_entries]
      · have h' : ¬ key = k' := fun e => h e.symm
        simp [update_entries, query_entries, h, h']
    · by_cases h : k' = k
      · subst h
        simp [update_entries, query_entries, hkey, ih]
      · simp only [update_entries, if_neg hkey, query_entries, ih, if_neg h]

theorem mem_keys_update_entries {FlowKeyType : Type} [DecidableEq FlowKeyType]
    (entries : List (FlowKeyType × Nat)) (k : FlowKeyType) (delta : Nat) (k' : FlowKeyType) :
    k' ∈ (update_entries entries k delta).map Prod.fst ↔
      k' = k ∨ k' ∈ entries.map Prod.fst := by
  induction entries with
  | nil => simp [update_entries]
  | cons entry rest ih =>
    obtain ⟨key, count⟩ := entry
    by_cases hkey : key = k
    · subst hkey
      simp [update_entries]
    · simp only [update_entries, if_neg hkey, List.map_cons, List.mem_cons, ih]
      tauto

theorem nodup_keys_update_entries {FlowKeyType : Type} [DecidableEq FlowKeyType]
    (entries : List (FlowKeyType × Nat)) (k : FlowKeyType) (delta : Nat)
    (hnodup : (entries.map Prod.fst).Nodup) :
    ((update_entries entries k delta).map Prod.fst).Nodup := by
  induction entries with
  | nil => simp [update_entries]
  | cons entry rest ih =>
    obtain ⟨key, count⟩ := entry
    rw [List.map_cons, List.nodup_cons] at hnodup
    by_cases hkey : key = k
    · subst hkey
      simp only [update_entries, if_true, List.map_cons, List.nodup_cons]
      exact hnodup
    · simp only [update_entries, if_neg hkey, List.map_cons, List.nodup_cons]
      refine ⟨?_, ih hnodup.2⟩
      rw [mem_keys_update_entries]
      rintro (h | h)
      · exact hkey h
      · exact hnodup.1 h

theorem sum_update_entries {FlowKeyType : Type} [DecidableEq FlowKeyType]
    (entries : List (FlowKeyType × Nat)) (k : FlowKeyType) (delta : Nat)
    (hfit : (entries.map Prod.snd).sum + delta < 2 ^ 64) :
    ((update_entries entries k delta).map Prod.snd).sum =
      (entries.map Prod.snd).sum + delta := by
  induction entries with
  | nil =>
    simp only [List.map_nil, List.sum_nil, Nat.zero_add] at hfit
    simp only [update_entries, List.map_cons, List.map_nil, List.sum_cons, List.sum_nil,
      Nat.add_zero, Nat.zero_add]
    exact Nat.mod_eq_of_lt hfit
  | cons entry rest ih =>
    obtain ⟨key, count⟩ := entry
    simp only [List.map_cons, List.sum_cons] at hfit
    by_cases hkey : key = k
    · simp only [update_entries, if_pos hkey, List.map_cons, List.sum_cons]
      rw [Nat.mod_eq_of_lt (by omega)]
      omega
    · simp only [update_entries, if_neg hkey, List.map_cons, List.sum_cons]
      rw [ih (by omega)]
      omega

theorem query_entries_of_mem {FlowKeyType : Type} [DecidableEq FlowKeyType]
    (entries : List (FlowKeyType × Nat)) (hnodup : (entries.map Prod.fst).Nodup)
    (pair : FlowKeyType × Nat) (hmem : pair ∈ entries) :
    query_entries entries pair.1 = pair.2 := by
  induction entries with
  | nil => exact absurd hmem (List.not_mem_nil _)
  | cons entry rest ih =>
    obtain ⟨key, count⟩ := entry
    rw [List.map_cons, List.nodup_cons] at hnodup
    rcases List.mem_cons.1 hmem with h | h
    · subst h
      simp [query_entries]
    · have hne : key ≠ pair.1 := by
        intro e
        have hfst : pair.1 ∈ rest.map Prod.fst := List.mem_map_of_mem Prod.fst h
        rw [← e] at hfst
        exact hnodup.1 hfst
      simp only [query_entries, if_neg hne]
      exact ih hnodup.2 h

theorem mem_of_query_entries_pos {FlowKeyType : Type} [DecidableEq FlowKeyType]
    (entries : List (FlowKeyType × Nat)) (k : FlowKeyType)
    (hpos : 0 < query_entries entries k) : (k, query_entries entries k) ∈ entries := by
  induction entries with
  | nil => simp [query_entries] at hpos
  | cons entry rest ih =>
    obtain ⟨key, count⟩ := entry
    by_cases hkey : key = k
    · subst hkey
      simp [query_entries]
    · simp only [query_entries, if_neg hkey] at hpos ⊢
      exact List.mem_cons_of_mem _ (ih hpos)

theorem flow_count_le_length {FlowKeyType : Type} [DecidableEq FlowKeyType]
    (packets : List (PacketRecord FlowKeyType)) (k : FlowKeyType) :
    flow_count packets k ≤ packets.length :=
  List.countP_le_length _

theorem flow_count_append_singleton {FlowKeyType : Type} [DecidableEq FlowKeyType]
    (packets : List (PacketRecord FlowKeyType)) (packet : PacketRecord FlowKeyType)
    (k : FlowKeyType) :
    flow_count (packets ++ [packet]) k =
      flow_count packets k + if k = packet.flow then 1 else 0 := by
  simp only [flow_count, List.countP_append, List.countP_cons, List.countP_nil, Nat.zero_add]
  by_cases h : k = packet.flow
  · subst h; simp
  · have h' : ¬ packet.flow = k := fun e => h e.symm
    simp [h, h']

theorem flow_count_pos_iff {FlowKeyType : Type} [DecidableEq FlowKeyType]
    (packets : List (PacketRecord FlowKeyType)) (k : FlowKeyType) :
    0 < flow_count packets k ↔ ∃ packet ∈ packets, packet.flow = k := by
  simp [flow_count, List.countP_pos_iff]

/-- The update loop of `process_epoch`, started on a counter that holds exactly the flow counts
of the packets `done` already seen: it ends on a counter that holds exactly the flow counts of
`done ++ todo`. -/
theorem foldl_update_counts {FlowKeyType : Type} [DecidableEq FlowKeyType] :
    ∀ (todo done : List (PacketRecord FlowKeyType)) (counter : Ideal FlowKeyType),
      (counter.raw_data.map Prod.fst).Nodup →
      (∀ k, query_entries counter.raw_data k = flow_count done k) →
      (∀ k ∈ counter.raw_data.map Prod.fst, 0 < flow_count done k) →
      (counter.raw_data.map Prod.snd).sum = done.length →
      done.length + todo.length < 2 ^ 64 →
      (((todo.foldl (fun counter packet => counter.update packet.flow 1)
          counter).raw_data.map Prod.fst).Nodup ∧
        (∀ k, query_entries (todo.foldl (fun counter packet => counter.update packet.flow 1)
          counter).raw_data k = flow_count (done ++ todo) k) ∧
        (∀ k ∈ (todo.foldl (fun counter packet => counter.update packet.flow 1)
          counter).raw_data.map Prod.fst, 0 < flow_count (done ++ todo) k) ∧
        ((todo.foldl (fun counter packet => counter.update packet.flow 1)
          counter).raw_data.map Prod.snd).sum = (done ++ todo).length) := by
  intro todo
  induction todo with
  | nil =>
    intro done counter hnodup hquery hkeys hsum _
    simp only [List.foldl_nil, List.append_nil]
    exact ⟨hnodup, hquery, hkeys, hsum⟩
  | cons packet rest ih =>
    intro done counter hnodup hquery hkeys hsum hfit
    simp only [List.length_cons] at hfit
    have hstep := ih (done ++ [packet]) (counter.update packet.flow 1)
      (nodup_keys_update_entries _ _ _ hnodup)
      (by
        intro k
        simp only [Ideal.update, query_update_entries, flow_count_append_singleton, hquery]
        by_cases h : k = packet.flow
        · rw [if_pos h, if_pos h]
          have := flow_count_le_length done packet.flow
          rw [h]
          exact Nat.mod_eq_of_lt (by omega)
        · rw [if_neg h, if_neg h, Nat.add_zero])
      (by
        intro k hk
        simp only [Ideal.update, mem_keys_update_entries] at hk
        rw [flow_count_append_singleton]
        rcases hk with h | h
        · rw [if_pos h]; omega
        · have := hkeys k h
          omega)
      (by
        simp only [Ideal.update]
        rw [sum_update_entries _ _ _ (by omega), hsum]
        simp)
      (by simp only [List.length_append, List.length_singleton]; omega)
    simpa using hstep

/-- The `uint64_t` sum of main.cpp:236-240 is the sum of the counts modulo `2^64`. -/
theorem epoch_total_packets_eq {FlowKeyType : Type} (ideal : Ideal FlowKeyType) :
    epoch_total_packets ideal = (ideal.raw_data.map Prod.snd).sum % 2 ^ 64 := by
  have h := foldl_wrapping_counter
    (fun (total_packets : Nat) (pair : FlowKeyType × Nat) => (total_packets + pair.2) % 2 ^ 64)
    (fun total_packets => total_packets) (fun pair => pair.2) (2 ^ 64)
    (by intro s a _; rfl) (by norm_num) ideal.raw_data 0 (by norm_num)
  beta_reduce at h
  simp only [epoch_total_packets, Ideal.get_raw_data]
  rw [h, Nat.zero_add]

/-- C12: for every packet list `P` (a vector, so of fewer than `2^64` records) and every prior
state of the Ideal counter, after `process_epoch(P, ...)` the Ideal map answers, for every flow
key `k`, exactly the number of records of `P` whose flow is `k`; each of its entries holds
that number for its key, a key that occurs in `P`, and every flow of `P` has its entry; no key
appears twice; counts of earlier epochs do not carry over; and the epoch total that `main`
sums over the map is the length of `P`. -/
theorem process_epoch_counts {FlowKeyType : Type} [DecidableEq FlowKeyType]
    (packets : List (PacketRecord FlowKeyType)) (prior : Ideal FlowKeyType)
    (hsize : packets.length < 2 ^ 64) :
    (∀ k, (process_epoch packets prior).query k = flow_count packets k) ∧
    (∀ pair ∈ (process_epoch packets prior).get_raw_data,
      pair.2 = flow_count packets pair.1 ∧ ∃ packet ∈ packets, packet.flow = pair.1) ∧
    (∀ packet ∈ packets,
      (packet.flow, flow_count packets packet.flow) ∈
        (process_epoch packets prior).get_raw_data) ∧
    ((process_epoch packets prior).get_raw_data.map Prod.fst).Nodup ∧
    epoch_total_packets (process_epoch packets prior) = packets.length := by
  obtain ⟨hnodup, hquery, hkeys, hsum⟩ := foldl_update_counts packets [] prior.clear
    (by simp [Ideal.clear]) (by intro k; simp [Ideal.clear, query_entries, flow_count])
    (by simp [Ideal.clear]) (by simp [Ideal.clear]) (by simpa using hsize)
  simp only [List.nil_append] at hquery hkeys hsum
  simp only [process_epoch, Ideal.query, Ideal.get_raw_data]
  refine ⟨hquery, ?_, ?_, hnodup, ?_⟩
  · intro pair hpair
    have hq := query_entries_of_mem _ hnodup pair hpair
    have hcount : pair.2 = flow_count packets pair.1 := by
      rw [← hq]; exact hquery pair.1
    refine ⟨hcount, ?_⟩
    exact (flow_count_pos_iff packets pair.1).1
      (hkeys pair.1 (List.mem_map_of_mem Prod.fst hpair))
  · intro packet hpacket
    have hpos : 0 < flow_count packets packet.flow :=
      (flow_count_pos_iff packets packet.flow).2 ⟨packet, hpacket, rfl⟩
    have hmem := mem_of_query_entries_pos _ packet.flow
      (lt_of_lt_of_eq hpos (hquery packet.flow).symm)
    rw [hquery] at hmem
    exact hmem
  · rw [epoch_total_packets_eq, hsum]
    exact Nat.mod_eq_of_lt hsize

/-- Witness for C12: four packets of the flows 5, 7, 5, 5 processed on a counter that still
holds the counts 40 and 2 of an earlier epoch leave the map {5: 3, 7: 1} and the total 4. -/
theorem process_epoch_counts_witness :
    epoch_packets.length < 2 ^ 64 ∧
    (process_epoch epoch_packets stale_ideal).get_raw_data = [(5, 3), (7, 1)] ∧
    (∀ k, (process_epoch epoch_packets stale_ideal).query k = flow_count epoch_packets k) ∧
    epoch_total_packets (process_epoch epoch_packets stale_ideal) = 4 := by
  have h := process_epoch_counts epoch_packets stale_ideal (by decide)
  exact ⟨by decide, by decide, h.1, by decide⟩

/-! ## The confusion matrix covers every flow once -/

/-- Every flow falls in exactly one of the four classifications. -/
theorem count_flows_sum {FlowKeyType : Type} (ideal_data : List (FlowKeyType × Nat))
    (query : FlowKeyType → Nat) (threshold : Nat) :
    count_flows ideal_data query threshold true true +
      count_flows ideal_data query threshold false false +
      count_flows ideal_data query threshold false true +
      count_flows ideal_data query threshold true false = ideal_data.length := by
  induction ideal_data with
  | nil => rfl
  | cons pair rest ih =>
    simp only [count_flows, List.countP_cons, List.length_cons] at ih ⊢
    cases is_heavy threshold pair.2 <;> cases is_heavy threshold (query pair.1) <;>
      simp at ih ⊢ <;> omega

theorem confusion_cell_sum (metric : HeavyHitterMetric) :
    metric.tp + metric.tn + metric.fp + metric.fn =
      confusion_cell metric true true + confusion_cell metric false false +
        confusion_cell metric false true + confusion_cell metric true false := rfl

/-- On `n` flows seen once and estimated 1, at threshold 1, the three cells other than `tp`
stay 0. -/
theorem evaluate_ideal_of_size_other_cells (n : Nat) :
    (evaluate (ideal_of_size n) (fun _ => 1) 1).heavy_hitter_metric_.tn = 0 ∧
    (evaluate (ideal_of_size n) (fun _ => 1) 1).heavy_hitter_metric_.fp = 0 ∧
    (evaluate (ideal_of_size n) (fun _ => 1) 1).heavy_hitter_metric_.fn = 0 := by
  have hsum := count_flows_sum (ideal_of_size n) (fun _ => 1) 1
  have htt : count_flows (ideal_of_size n) (fun _ => 1) 1 true true = n := by
    rw [(count_flows_eq_countP (ideal_of_size n) (fun _ => 1) 1).1]
    exact (evaluate_ideal_of_size n).2
  have hlen : (ideal_of_size n).length = n := by simp [ideal_of_size]
  rw [htt, hlen] at hsum
  have h1 := heavy_hitter_metric_evaluate (ideal_of_size n) (fun _ => 1) 1 false false
  have h2 := heavy_hitter_metric_evaluate (ideal_of_size n) (fun _ => 1) 1 false true
  have h3 := heavy_hitter_metric_evaluate (ideal_of_size n) (fun _ => 1) 1 true false
  have z1 : count_flows (ideal_of_size n) (fun _ => 1) 1 false false = 0 := by omega
  have z2 : count_flows (ideal_of_size n) (fun _ => 1) 1 false true = 0 := by omega
  have z3 : count_flows (ideal_of_size n) (fun _ => 1) 1 true false = 0 := by omega
  rw [z1] at h1
  rw [z2] at h2
  rw [z3] at h3
  exact ⟨h1, h2, h3⟩

/-- C16, as stated, fails: on an Ideal map of `2^32` flows that are all true positives the
four 32-bit counters are 0 after `evaluate`, so they sum to 0 and not to the `2^32` flows of
the map. -/
theorem evaluate_confusion_sum_wraps :
    (evaluate (ideal_of_size (2 ^ 32)) (fun _ => 1) 1).heavy_hitter_metric_.tp = 0 ∧
    (evaluate (ideal_of_size (2 ^ 32)) (fun _ => 1) 1).heavy_hitter_metric_.tn = 0 ∧
    (evaluate (ideal_of_size (2 ^ 32)) (fun _ => 1) 1).heavy_hitter_metric_.fp = 0 ∧
    (evaluate (ideal_of_size (2 ^ 32)) (fun _ => 1) 1).heavy_hitter_metric_.fn = 0 ∧
    (ideal_of_size (2 ^ 32)).length = 2 ^ 32 := by
  have h := (evaluate_ideal_of_size (2 ^ 32)).1
  rw [Nat.mod_self] at h
  obtain ⟨h1, h2, h3⟩ := evaluate_ideal_of_size_other_cells (2 ^ 32)
  exact ⟨h, h1, h2, h3, by simp [ideal_of_size]⟩

/-- C16, amended: for every Ideal map with fewer than `2^32` flows, every sketch and every
threshold, after `evaluate` the four confusion-matrix counts satisfy
`tp + tn + fp + fn =` the number of flows of the Ideal map; and for an empty Ideal map all four
counts and ARE, AAE and WMRE are 0. -/
theorem evaluate_confusion_sum {FlowKeyType : Type} (ideal_data : List (FlowKeyType × Nat))
    (query : FlowKeyType → Nat) (threshold : Nat) (hflows : ideal_data.length < 2 ^ 32) :
    (evaluate ideal_data query threshold).heavy_hitter_metric_.tp +
        (evaluate ideal_data query threshold).heavy_hitter_metric_.tn +
        (evaluate ideal_data query threshold).heavy_hitter_metric_.fp +
        (evaluate ideal_data query threshold).heavy_hitter_metric_.fn = ideal_data.length ∧
    (ideal_data = [] →
      (evaluate ideal_data query threshold).heavy_hitter_metric_.tp = 0 ∧
      (evaluate ideal_data query threshold).heavy_hitter_metric_.tn = 0 ∧
      (evaluate ideal_data query threshold).heavy_hitter_metric_.fp = 0 ∧
      (evaluate ideal_data query threshold).heavy_hitter_metric_.fn = 0 ∧
      (evaluate ideal_data query threshold).error_metric_.are = 0 ∧
      (evaluate ideal_data query threshold).error_metric_.aae = 0 ∧
      (evaluate ideal_data query threshold).error_metric_.wmre = 0) := by
  constructor
  · have hcell : ∀ heavy_ideal heavy_estimated : Bool,
        confusion_cell (evaluate ideal_data query threshold).heavy_hitter_metric_
            heavy_ideal heavy_estimated =
          count_flows ideal_data query threshold heavy_ideal heavy_estimated := by
      intro heavy_ideal heavy_estimated
      rw [heavy_hitter_metric_evaluate]
      exact Nat.mod_eq_of_lt
        (lt_of_le_of_lt (count_flows_le_length ideal_data query threshold _ _) hflows)
    rw [confusion_cell_sum, hcell, hcell, hcell, hcell]
    exact count_flows_sum ideal_data query threshold
  · intro hnil
    subst hnil
    exact ⟨rfl, rfl, rfl, rfl, rfl, rfl, rfl⟩

/-- Witness for amended C16: three flows, one true positive, one true negative, one false
negative. -/
theorem evaluate_confusion_sum_witness :
    small_ideal.length < 2 ^ 32 ∧
    (evaluate small_ideal small_query 2).heavy_hitter_metric_.tp +
        (evaluate small_ideal small_query 2).heavy_hitter_metric_.tn +
        (evaluate small_ideal small_query 2).heavy_hitter_metric_.fp +
        (evaluate small_ideal small_query 2).heavy_hitter_metric_.fn = 3 :=
  ⟨by decide, (evaluate_confusion_sum small_ideal small_query 2 (by decide)).1⟩

/-! ## Ratio metrics -/

/-- A ratio `a / (a + b)` of counts whose 32-bit sum does not overflow: the method returns 0
when the denominator count is 0 and the exact ratio otherwise, a value in `[0, 1]`. -/
theorem ratio_of_no_overflow (a b : Nat) (hfit : a + b < 2 ^ 32) :
    (if (((a + b) % 2 ^ 32 : Nat) : ℚ) > 0 then (a : ℚ) / (((a + b) % 2 ^ 32 : Nat) : ℚ)
      else 0) = (if a + b = 0 then 0 else (a : ℚ) / ((a : ℚ) + (b : ℚ))) ∧
    0 ≤ (if a + b = 0 then 0 else (a : ℚ) / ((a : ℚ) + (b : ℚ))) ∧
    (if a + b = 0 then 0 else (a : ℚ) / ((a : ℚ) + (b : ℚ))) ≤ 1 := by
  rw [Nat.mod_eq_of_lt hfit]
  by_cases h0 : a + b = 0
  · simp [h0]
  · have hpos : (0 : ℚ) < ((a + b : Nat) : ℚ) := by exact_mod_cast Nat.pos_of_ne_zero h0
    have hcast : ((a + b : Nat) : ℚ) = (a : ℚ) + (b : ℚ) := by push_cast; rfl
    rw [if_pos hpos, if_neg h0, hcast]
    rw [hcast] at hpos
    refine ⟨rfl, div_nonneg (by positivity) (le_of_lt hpos), ?_⟩
    rw [div_le_one hpos]
    have : (0 : ℚ) ≤ (b : ℚ) := by positivity
    linarith

/-- Without 32-bit overflow of `tp + fp`, `get_precision` is 0 for `tp + fp = 0` and
`tp / (tp + fp)` otherwise, in `[0, 1]`. -/
theorem get_precision_of_no_overflow (metric : HeavyHitterMetric)
    (hfit : metric.tp + metric.fp < 2 ^ 32) :
    metric.get_precision =
      (if metric.tp + metric.fp = 0 then 0
        else (metric.tp : ℚ) / ((metric.tp : ℚ) + (metric.fp : ℚ))) ∧
    0 ≤ metric.get_precision ∧ metric.get_precision ≤ 1 := by
  obtain ⟨h1, h2, h3⟩ := ratio_of_no_overflow metric.tp metric.fp hfit
  have h : metric.get_precision =
      (if metric.tp + metric.fp = 0 then 0
        else (metric.tp : ℚ) / ((metric.tp : ℚ) + (metric.fp : ℚ))) := h1
  exact ⟨h, h ▸ h2, h ▸ h3⟩

/-- Without 32-bit overflow of the total `tp + tn + fp + fn`, the four ratio methods return 0
when their denominator count is 0 and the exact ratio otherwise, each in `[0, 1]`. -/
theorem ratio_metrics_of_no_overflow (metric : HeavyHitterMetric)
    (hfit : metric.tp + metric.tn + metric.fp + metric.fn < 2 ^ 32) :
    (metric.get_precision =
        (if metric.tp + metric.fp = 0 then 0
          else (metric.tp : ℚ) / ((metric.tp : ℚ) + (metric.fp : ℚ))) ∧
      0 ≤ metric.get_precision ∧ metric.get_precision ≤ 1) ∧
    (metric.get_recall =
        (if metric.tp + metric.fn = 0 then 0
          else (metric.tp : ℚ) / ((metric.tp : ℚ) + (metric.fn : ℚ))) ∧
      0 ≤ metric.get_recall ∧ metric.get_recall ≤ 1) ∧
    (metric.get_accuracy =
        (if metric.tp + metric.tn + (metric.fp + metric.fn) = 0 then 0
          else ((metric.tp + metric.tn : Nat) : ℚ) /
            (((metric.tp + metric.tn : Nat) : ℚ) + ((metric.fp + metric.fn : Nat) : ℚ))) ∧
      0 ≤ metric.get_accuracy ∧ metric.get_accuracy ≤ 1) ∧
    (metric.get_fpr =
        (if metric.fp + metric.tn = 0 then 0
          else (metric.fp : ℚ) / ((metric.fp : ℚ) + (metric.tn : ℚ))) ∧
      0 ≤ metric.get_fpr ∧ metric.get_fpr ≤ 1) := by
  refine ⟨get_precision_of_no_overflow metric (by omega), ?_, ?_, ?_⟩
  · obtain ⟨h1, h2, h3⟩ := ratio_of_no_overflow metric.tp metric.fn (by omega)
    have h : metric.get_recall =
        (if metric.tp + metric.fn = 0 then 0
          else (metric.tp : ℚ) / ((metric.tp : ℚ) + (metric.fn : ℚ))) := h1
    exact ⟨h, h ▸ h2, h ▸ h3⟩
  · obtain ⟨h1, h2, h3⟩ := ratio_of_no_overflow (metric.tp + metric.tn)
      (metric.fp + metric.fn) (by omega)
    have h : metric.get_accuracy =
        (if metric.tp + metric.tn + (metric.fp + metric.fn) = 0 then 0
          else ((metric.tp + metric.tn : Nat) : ℚ) /
            (((metric.tp + metric.tn : Nat) : ℚ) + ((metric.fp + metric.fn : Nat) : ℚ))) := by
      rw [← h1]
      unfold HeavyHitterMetric.get_accuracy
      rw [Nat.mod_eq_of_lt (show metric.tp + metric.tn < 2 ^ 32 by omega),
        show metric.tp + metric.tn + metric.fp + metric.fn =
          metric.tp + metric.tn + (metric.fp + metric.fn) by omega]
    exact ⟨h, h ▸ h2, h ▸ h3⟩
  · obtain ⟨h1, h2, h3⟩ := ratio_of_no_overflow metric.fp metric.tn (by omega)
    have h : metric.get_fpr =
        (if metric.fp + metric.tn = 0 then 0
          else (metric.fp : ℚ) / ((metric.fp : ℚ) + (metric.tn : ℚ))) := by
      rw [← h1]
      unfold HeavyHitterMetric.get_fpr
      rw [Nat.add_comm metric.tn metric.fp]
    exact ⟨h, h ▸ h2, h ▸ h3⟩

/-- C17 does not hold of the code: the counters `tp = fp = 2^31` are 32-bit values whose sum
`2^32` is not 0, yet `get_precision` returns 0 instead of the exact ratio 1/2, because
`tp + fp` wraps to 0 in 32 bits before the conversion to `double`; and for `tp = 2^32 - 1`,
`fp = 2` the sum wraps to 1 and `get_precision` returns `2^32 - 1`, far above 1.  The same
happens to `get_accuracy` on the first counters. -/
theorem get_precision_overflow :
    half_and_half.tp < 2 ^ 32 ∧ half_and_half.fp < 2 ^ 32 ∧
    half_and_half.tp + half_and_half.fp ≠ 0 ∧
    (half_and_half.tp : ℚ) / ((half_and_half.tp : ℚ) + (half_and_half.fp : ℚ)) = 1 / 2 ∧
    half_and_half.get_precision = 0 ∧
    half_and_half.get_accuracy = 0 ∧
    nearly_full.tp < 2 ^ 32 ∧ nearly_full.fp < 2 ^ 32 ∧
    nearly_full.get_precision = 4294967295 ∧
    1 < nearly_full.get_precision := by
  have h1 : half_and_half.get_precision = 0 := by
    norm_num [HeavyHitterMetric.get_precision, half_and_half]
  have h2 : nearly_full.get_precision = 4294967295 := by
    norm_num [HeavyHitterMetric.get_precision, nearly_full]
  refine ⟨by decide, by decide, by decide, by norm_num [half_and_half], h1,
    by norm_num [HeavyHitterMetric.get_accuracy, half_and_half], by decide, by decide, h2, ?_⟩
  rw [h2]
  norm_num

/-! ## The heavy-hitter threshold of an epoch -/

theorem double_rounding_exact_rounding : DoubleRounding exact_rounding := by
  constructor
  · intro x y h; exact h
  · intro n _; rfl
  · intro x hx _
    simp only [exact_rounding, sub_self, abs_zero]
    have : (0 : ℚ) < 1 / 2 ^ 1022 := by positivity
    have hx0 : 0 ≤ x := by linarith
    positivity

/-- The value that `main` converts to `uint32_t`, for a positive total whose exact quotient by
10000 has the integer part `n < 2^32`: it lies in `[n, n + 1)`.  Below, the constant exceeds
0.01, so the product is at least `100 * n`, a `double`, and stays so through both roundings;
above, the three relative errors add up to less than `2^-51`, against a distance of at least
`10^-4` to `n + 1`. -/
theorem rounded_quotient_bounds (rounded : ℚ → ℚ) (hrounded : DoubleRounding rounded)
    (total_packets n : Nat) (hpos : 0 < total_packets) (hlow : 10000 * n ≤ total_packets)
    (hhigh : total_packets ≤ 10000 * n + 9999) (hn : n < 2 ^ 32) :
    (n : ℚ) ≤ rounded (rounded (rounded (total_packets : ℚ) *
        HEAVY_HITTER_THRESHOLD_PERCENTAGE) / 100) ∧
    rounded (rounded (rounded (total_packets : ℚ) *
        HEAVY_HITTER_THRESHOLD_PERCENTAGE) / 100) < (n : ℚ) + 1 := by
  have hT53 : total_packets ≤ 2 ^ 53 := by omega
  rw [hrounded.exact_of_nat total_packets hT53]
  have hT1 : (1 : ℚ) ≤ (total_packets : ℚ) := by exact_mod_cast hpos
  have hTlow : (10000 : ℚ) * (n : ℚ) ≤ (total_packets : ℚ) := by exact_mod_cast hlow
  have hThigh : (total_packets : ℚ) ≤ 10000 * (n : ℚ) + 9999 := by exact_mod_cast hhigh
  have hnq : (n : ℚ) ≤ 4294967295 := by
    have : n ≤ 4294967295 := by omega
    exact_mod_cast this
  have hn0 : (0 : ℚ) ≤ (n : ℚ) := by positivity
  generalize hz : (total_packets : ℚ) * HEAVY_HITTER_THRESHOLD_PERCENTAGE = z
  have hzval : z = (total_packets : ℚ) * (5764607523034235 / 576460752303423488) := by
    rw [← hz]; rfl
  have hz_low : (100 : ℚ) * (n : ℚ) ≤ z := by rw [hzval]; linarith
  have hz_one : (1 : ℚ) / 100 ≤ z := by rw [hzval]; linarith
  have hz_high : z ≤ 2 ^ 1023 := by
    have : z ≤ 2 ^ 53 := by rw [hzval]; norm_num; linarith
    exact le_trans this (by norm_num)
  have hz_small : (1 : ℚ) / 2 ^ 1022 ≤ z := le_trans (by norm_num) hz_one
  have hx_err := hrounded.error z hz_small hz_high
  rw [abs_le] at hx_err
  have hx_low : (100 : ℚ) * (n : ℚ) ≤ rounded z := by
    have h1 := hrounded.mono ((100 * n : Nat) : ℚ) z (by push_cast; exact hz_low)
    rw [hrounded.exact_of_nat (100 * n) (by omega)] at h1
    push_cast at h1
    exact h1
  generalize hx : rounded z = x at hx_err hx_low
  have hw_low : (n : ℚ) ≤ x / 100 := by rw [le_div_iff₀ (by norm_num)]; linarith
  have hw_small : (1 : ℚ) / 2 ^ 1022 ≤ x / 100 := by
    have h1 : (1 : ℚ) / 20000 ≤ x / 100 := by
      rw [le_div_iff₀ (by norm_num)]
      have : z / 2 ^ 53 ≤ z / 2 := by
        apply div_le_div_of_nonneg_left (by linarith) (by norm_num) (by norm_num)
      linarith [hx_err.1]
    exact le_trans (by norm_num) h1
  have hw_high : x / 100 ≤ 2 ^ 1023 := by
    have : x / 100 ≤ 2 ^ 53 := by
      rw [div_le_iff₀ (by norm_num)]
      have : z / 2 ^ 53 ≤ z := div_le_self (by linarith) (by norm_num)
      have hz53 : z ≤ 2 ^ 53 := by rw [hzval]; norm_num; linarith
      linarith [hx_err.2]
    exact le_trans this (by norm_num)
  have hy_err := hrounded.error (x / 100) hw_small hw_high
  rw [abs_le] at hy_err
  have hy_low : (n : ℚ) ≤ rounded (x / 100) := by
    have h1 := hrounded.mono (n : ℚ) (x / 100) hw_low
    rw [hrounded.exact_of_nat n (by omega)] at h1
    exact h1
  refine ⟨hy_low, ?_⟩
  generalize rounded (x / 100) = y at hy_err
  have hx_up : x ≤ z + z / 2 ^ 53 := by linarith [hx_err.2]
  have hy_up : y ≤ x / 100 + x / 100 / 2 ^ 53 := by linarith [hy_err.2]
  rw [hzval] at hx_up
  norm_num at hx_up hy_up ⊢
  linarith

theorem floor_exact_quotient (total_packets : Nat) :
    ⌊(total_packets : ℚ) * (1 / 100) / 100⌋₊ = total_packets / 10000 := by
  have h : (total_packets : ℚ) * (1 / 100) / 100 = (total_packets : ℚ) / ((10000 : Nat) : ℚ) := by
    push_cast; ring
  rw [h, Nat.floor_div_eq_div]

/-- The guard `total_packets > 0` of main.cpp:245 at work: a total of 0 leaves the threshold
at 0. -/
theorem heavy_hitter_threshold_zero (rounded : ℚ → ℚ) (hrounded : DoubleRounding rounded) :
    heavy_hitter_threshold rounded 0 = some 0 := by
  have h0 : rounded (0 : ℚ) = 0 := by
    have := hrounded.exact_of_nat 0 (by norm_num)
    simpa using this
  simp only [heavy_hitter_threshold, Nat.cast_zero, h0, zero_mul, zero_div]
  rw [static_cast_uint32_of_nonneg 0 (le_refl _) (by simp)]
  simp

/-- For a positive packet total, the threshold that `main` computes in `double` arithmetic
equals `max(1, floor(total_packets * 0.01 / 100))` in exact arithmetic, as long as that value
is a `uint32_t`. -/
theorem heavy_hitter_threshold_of_pos (rounded : ℚ → ℚ) (hrounded : DoubleRounding rounded)
    (total_packets : Nat) (hpos : 0 < total_packets)
    (hrange : ⌊(total_packets : ℚ) * (1 / 100) / 100⌋₊ < 2 ^ 32) :
    heavy_hitter_threshold rounded total_packets =
      some (max 1 ⌊(total_packets : ℚ) * (1 / 100) / 100⌋₊) := by
  rw [floor_exact_quotient] at hrange ⊢
  obtain ⟨hlow, hhigh⟩ := rounded_quotient_bounds rounded hrounded total_packets
    (total_packets / 10000) hpos (by omega) (by omega) hrange
  have hnonneg : (0 : ℚ) ≤ rounded (rounded (rounded (total_packets : ℚ) *
      HEAVY_HITTER_THRESHOLD_PERCENTAGE) / 100) :=
    le_trans (by positivity) hlow
  have hfloor : ⌊rounded (rounded (rounded (total_packets : ℚ) *
      HEAVY_HITTER_THRESHOLD_PERCENTAGE) / 100)⌋₊ = total_packets / 10000 :=
    (Nat.floor_eq_iff hnonneg).2 ⟨hlow, hhigh⟩
  rw [heavy_hitter_threshold, static_cast_uint32_of_nonneg _ hnonneg (by rw [hfloor]; exact hrange),
    hfloor, Option.map_some']
  congr 1
  by_cases h0 : total_packets / 10000 = 0
  · rw [if_pos ⟨h0, hpos⟩, h0]
    rfl
  · rw [if_neg (fun h => h0 h.1)]
    exact (max_eq_right (Nat.one_le_iff_ne_zero.2 h0)).symm

theorem EPOCH_DURATION_positive (argument : Option Int) : 0 < EPOCH_DURATION argument := by
  unfold EPOCH_DURATION epoch_ms
  cases argument with
  | none => decide
  | some parsed =>
    simp only
    split <;> omega

theorem epoch_total_packets_process_epoch {FlowKeyType : Type} [DecidableEq FlowKeyType]
    (packets : List (PacketRecord FlowKeyType)) (prior : Ideal FlowKeyType)
    (hsize : packets.length < 2 ^ 64) :
    epoch_total_packets (process_epoch packets prior) = packets.length := by
  obtain ⟨_, _, _, hsum⟩ := foldl_update_counts packets [] prior.clear
    (by simp [Ideal.clear]) (by intro k; simp [Ideal.clear, query_entries, flow_count])
    (by simp [Ideal.clear]) (by simp [Ideal.clear]) (by simpa using hsize)
  simp only [List.nil_append] at hsum
  simp only [process_epoch]
  rw [epoch_total_packets_eq, hsum]
  exact Nat.mod_eq_of_lt hsize

/-- Every epoch that `main` hands to `process_epoch` and to the threshold computation holds
at least one packet, so its packet total is positive: the duration `main` passes is positive,
hence no returned epoch is empty, and the Ideal map counts every packet of the epoch. -/
theorem main_epochs_total_packets_pos {FlowKeyType : Type} [DecidableEq FlowKeyType]
    (argument : Option Int) (packets : PacketVector FlowKeyType) (prior : Ideal FlowKeyType)
    (hsize : packets.length < 2 ^ 64) :
    ∃ epochs, main_epochs argument packets = some epochs ∧
      ∀ e ∈ epochs, epoch_total_packets (process_epoch e prior) = e.length ∧
        0 < epoch_total_packets (process_epoch e prior) := by
  obtain ⟨epochs, h, hflat, hne⟩ :=
    parse_pcap_with_epochs_of_pos (EPOCH_DURATION_positive argument) packets
  refine ⟨epochs, h, ?_⟩
  intro e he
  have hlen : e.length ≤ packets.length := by
    rw [← hflat]
    exact (List.sublist_flatten_of_mem he).length_le
  have htotal := epoch_total_packets_process_epoch e prior (lt_of_le_of_lt hlen hsize)
  refine ⟨htotal, ?_⟩
  rw [htotal]
  exact List.length_pos.2 (hne e he)

/-- C7: for every epoch, the heavy-hitter threshold that `main` computes from the epoch's
packet total, in `double` arithmetic and with its percentage 0.01, equals
`max(1, floor(total_packets * 0.01 / 100))` in exact arithmetic, as long as that value is a
`uint32_t`.  First for every positive total; then for every epoch of a run of `main`,
whatever the command-line argument, the parsed packets and the prior state of the Ideal
counter: the run has its epochs, the total that `main` sums for each of them is positive, and
the threshold computed from it is the value above.  With 10000 packets the threshold is 1. -/
theorem heavy_hitter_threshold_eq {FlowKeyType : Type} [DecidableEq FlowKeyType]
    (rounded : ℚ → ℚ) (hrounded : DoubleRounding rounded) :
    (∀ total_packets : Nat, 0 < total_packets →
      ⌊(total_packets : ℚ) * (1 / 100) / 100⌋₊ < 2 ^ 32 →
      heavy_hitter_threshold rounded total_packets =
        some (max 1 ⌊(total_packets : ℚ) * (1 / 100) / 100⌋₊)) ∧
    (∀ (argument : Option Int) (packets : PacketVector FlowKeyType)
      (prior : Ideal FlowKeyType), packets.length < 2 ^ 64 →
      ∃ epochs, main_epochs argument packets = some epochs ∧
        ∀ e ∈ epochs, 0 < epoch_total_packets (process_epoch e prior) ∧
          (⌊(epoch_total_packets (process_epoch e prior) : ℚ) * (1 / 100) / 100⌋₊ < 2 ^ 32 →
            heavy_hitter_threshold rounded (epoch_total_packets (process_epoch e prior)) =
              some (max 1
                ⌊(epoch_total_packets (process_epoch e prior) : ℚ) * (1 / 100) / 100⌋₊))) := by
  refine ⟨heavy_hitter_threshold_of_pos rounded hrounded, ?_⟩
  intro argument packets prior hsize
  obtain ⟨epochs, h, hall⟩ := main_epochs_total_packets_pos argument packets prior hsize
  refine ⟨epochs, h, ?_⟩
  intro e he
  exact ⟨(hall e he).2, heavy_hitter_threshold_of_pos rounded hrounded _ (hall e he).2⟩

/-- Witness for C7, the specification's scenario: 10000 packets give the threshold 1. -/
theorem heavy_hitter_threshold_eq_witness :
    heavy_hitter_threshold exact_rounding 10000 = some 1 := by
  have h := (@heavy_hitter_threshold_eq Nat _ exact_rounding double_rounding_exact_rounding).1
    10000 (by norm_num) (by rw [floor_exact_quotient]; norm_num)
  rw [h, floor_exact_quotient]
  rfl

end Medivh
